import Mathlib

/-!
Shallow embedding of the reactome `logic-network-generator` repository
(final revision: `src/reaction_generator.py`, `src/best_reaction_match.py`,
`src/logic_network_generator.py`) together with proofs settling the frozen
claims C1-C10 about it.

Modelling conventions, used throughout and referred to from the definitions:

* Python strings that flow through the decomposer are of three disjoint
  shapes: ordinary reactome-id strings (decimal digits, produced by
  `str(entity_id)`), SHA-256 hex digests (64 characters, produced by
  `hashlib.sha256(...).hexdigest()`), and random UUIDs
  (36 characters, produced by `str(uuid.uuid4())`).  The code itself relies
  on this shape discipline: `is_valid_uuid` distinguishes digests from
  everything else purely by `len(identifier) == 64`.  We model this string
  domain as the inductive type `PyStr` with one constructor per shape.
  SHA-256 is modelled as a perfect content-addressed mint: a run-global
  hash-cons table maps each distinct preimage (the `str(uid_data)` key) to
  an index, and the digest is `PyStr.sha index`.  Equal preimages therefore
  give equal digests (as for real SHA-256) and distinct preimages give
  distinct digests (collision-freedom, the working assumption of the code).
  Each `uuid.uuid4()` call yields `PyStr.u4 n` for a strictly increasing
  counter `n`, modelling the code's assumption that random UUIDs are fresh.

* Python `dict`s are modelled as association lists with insert-or-overwrite
  (`upsert`), which preserves the position of an existing key exactly like
  a CPython dict preserves first-insertion order.

* Python `set`s are modelled as duplicate-free lists in first-occurrence
  order (`pySet`, `setAdd`); only membership and cardinality of these
  values is ever observed by the claims.

* `pandas` tables are lists of typed row structures; column filtering is
  `List.filter`.  One pandas semantic detail is load-bearing and modelled
  explicitly: comparing a string-valued column against a Python `int`
  (`decomposed_uid_mapping["reactome_id"] == entity_id` in
  `break_apart_entity_standard`) is elementwise `str == int`, which is
  `False` in Python; see `pyEqStrInt`.

* The graph-database collaborator (`neo4j_connector`) is a pure
  environment `Env` of query functions; persisted state mutated by the
  decomposer (`decomposed_uid_mapping`, the reference-entity cache, the
  hash-cons table, the uuid counter) is an explicit state record `DState`
  threaded through every function.
-/

/-- The domain of Python strings handled by the decomposer, split by the
three disjoint shapes the code relies on (see module docstring). -/
inductive PyStr where
  | lit (v : String)
  | sha (i : Nat)
  | u4 (n : Nat)
deriving DecidableEq, Repr

/-- Model of `is_valid_uuid` from `reaction_generator.py`: the code tests
`len(identifier) == 64`, which among the strings that actually occur is
true exactly for SHA-256 hex digests. -/
def is_valid_uuid : PyStr → Bool
  | .sha _ => true
  | _ => false

/-- One entry `(component_id, input_or_output_id, stoichiometry)` of the
`uid_data` list whose string rendering is fed to `hashlib.sha256` in
`get_uids_for_iterproduct_components`. -/
abbrev UEntry := PyStr × PyStr × Int

/-- The full `uid_data` key: the sorted list of `UEntry` triples. -/
abbrev UKey := List UEntry

/-- A row of the global `decomposed_uid_mapping` DataFrame
(enhanced schema of `reaction_generator.py`). -/
structure Row where
  uid : PyStr
  componentId : PyStr
  reactomeId : PyStr
  compOrRef : PyStr
  ioUid : Option PyStr
  ioReactomeId : Option PyStr
  stoich : Int
  entityStoich : Int
  componentStoich : Int
deriving DecidableEq, Repr

/-- The graph-database collaborator consumed by the decomposer
(`neo4j_connector` interface; `get_complex_components_with_stoichiometry`
and `do_entities_have_same_reference_entity` are imported by the source but
live at this external query boundary). -/
structure Env where
  labels : Nat → List String
  setMembers : Nat → List Nat
  complexComponents : Nat → List (Nat × Int)
  containsRef : Nat → Bool
  refEntityId : PyStr → Option PyStr
  sameRef : PyStr → PyStr → Bool

/-- The mutable module-level state of `reaction_generator.py`:
the growing mapping table, the reference-entity cache, the SHA-256
hash-cons table (see module docstring) and the uuid4 counter. -/
structure DState where
  mapping : List Row
  hashKeys : List UKey
  refDict : List (PyStr × PyStr)
  uuidCount : Nat
  crashed : Bool
deriving DecidableEq, Repr

/-- The empty starting state of a pathway run. -/
def initState : DState :=
  { mapping := [], hashKeys := [], refDict := [], uuidCount := 0, crashed := false }

/-- Association-list lookup (Python `dict.get` without default). -/
def alookup [DecidableEq κ] (m : List (κ × α)) (k : κ) : Option α :=
  match m with
  | [] => none
  | (k', v) :: rest => if k = k' then some v else alookup rest k

/-- Python `dict.get(k, d)`. -/
def lookupD [DecidableEq κ] (m : List (κ × α)) (k : κ) (d : α) : α :=
  (alookup m k).getD d

/-- Python `dict[k] = v`: overwrite in place if the key exists (keeping its
original position, as CPython dicts do), else append. -/
def upsert [DecidableEq κ] (m : List (κ × α)) (k : κ) (v : α) : List (κ × α) :=
  match m with
  | [] => [(k, v)]
  | (k', v') :: rest => if k = k' then (k, v) :: rest else (k', v') :: upsert rest k v

/-- Python `set.add`: append only if absent (first-occurrence order). -/
def setAdd [DecidableEq α] (s : List α) (a : α) : List α :=
  if a ∈ s then s else s ++ [a]

/-- Python `set(list)`: deduplicate keeping first occurrences. -/
def pySet [DecidableEq α] (l : List α) : List α :=
  l.foldl setAdd []

/-- Union of two modelled sets (the second operand may be any list). -/
def setUnion [DecidableEq α] (s t : List α) : List α :=
  t.foldl setAdd s

/-- Model of `itertools.product(*lists)`: first factor is the slowest
varying index, matching the Python iteration order. -/
def listProd : List (List α) → List (List α)
  | [] => [[]]
  | l :: ls => l.foldr (fun x acc => ((listProd ls).map (fun r => x :: r)) ++ acc) []

/-- Lexicographic comparison of character lists by code point, the order
Python uses on strings. -/
def charListLe : List Char → List Char → Bool
  | [], _ => true
  | _ :: _, [] => false
  | a :: as, b :: bs =>
    if a.toNat < b.toNat then true
    else if b.toNat < a.toNat then false
    else charListLe as bs

/-- A fixed total order on `PyStr` standing in for Python's string
comparison in `sorted(component_to_input_or_output.items())`: ordinary
strings lexicographically, and an arbitrary fixed order across the three
string shapes.  Any fixed total order yields the same canonical-form
semantics: equal dicts sort to equal lists, distinct dicts to distinct
lists. -/
def pyStrLe (a b : PyStr) : Bool :=
  match a, b with
  | .lit x, .lit y => charListLe x.data y.data
  | .lit _, _ => true
  | .sha _, .lit _ => false
  | .sha i, .sha j => decide (i ≤ j)
  | .sha _, .u4 _ => true
  | .u4 n, .u4 m => decide (n ≤ m)
  | .u4 _, _ => false

/-- Lexicographic order on dict items `(component_id, io_id)`, as Python's
`sorted` orders tuples. -/
def pairLe (p q : PyStr × PyStr) : Prop :=
  if p.1 = q.1 then pyStrLe p.2 q.2 = true else pyStrLe p.1 q.1 = true

instance : DecidableRel pairLe := fun p q => by
  unfold pairLe; infer_instance

/-- Sorting of the dict items, Python `sorted(d.items())`. -/
def sortItems (l : List (PyStr × PyStr)) : List (PyStr × PyStr) :=
  l.insertionSort pairLe

/-- SHA-256 as a perfect content-addressed mint over the run-global
hash-cons table (see module docstring): the digest of a key is
`PyStr.sha i` where `i` is the key's index in the table. -/
def keyIndex (l : List UKey) (k : UKey) : Option Nat :=
  match l with
  | [] => none
  | k' :: rest => if k = k' then some 0 else (keyIndex rest k).map (· + 1)

/-- Mint the SHA-256 digest of `uid_data` key `k`, registering a new
preimage in the hash-cons table when it is first seen. -/
def shaMint (st : DState) (k : UKey) : PyStr × DState :=
  match keyIndex st.hashKeys k with
  | some i => (.sha i, st)
  | none => (.sha st.hashKeys.length, { st with hashKeys := st.hashKeys ++ [k] })

/-- Model of `get_component_id_or_reference_entity_id`: a memoizing cache
over `get_reference_entity_id`, falling back to the id itself. -/
def get_component_id_or_reference_entity_id (env : Env) (st : DState) (rid : PyStr) :
    PyStr × DState :=
  match alookup st.refDict rid with
  | some v => (v, st)
  | none =>
      let r := (env.refEntityId rid).getD rid
      (r, { st with refDict := st.refDict ++ [(rid, r)] })

/-- The dict-building loop at the top of the per-component body of
`get_uids_for_iterproduct_components`: iterate over the items of one
cartesian tuple (a Python set), mapping each elementary component id to its
`input_or_output` pointer and stoichiometry.  An item that is a SHA-256
digest (`is_valid_uuid`) contributes one entry per matching row of the
mapping table; any other item maps to itself with the stoichiometry taken
from `stoichiometry_map`. -/
def buildComponentDicts (st : DState) (stoichMap : List (PyStr × Int))
    (component : List PyStr) : List (PyStr × PyStr) × List (PyStr × Int) :=
  component.foldl
    (fun acc item =>
      if is_valid_uuid item then
        (st.mapping.filter (fun r => r.uid = item)).foldl
          (fun acc2 r =>
            (upsert acc2.1 r.componentId item, upsert acc2.2 r.componentId r.stoich))
          acc
      else
        (upsert acc.1 item item, upsert acc.2 item (lookupD stoichMap item 1)))
    ([], [])

/-- The `uid_data` key actually hashed for one cartesian tuple: the sorted
dict items extended with each component's stoichiometry
(`[(comp, io, component_stoichiometries.get(comp, 1)) for comp, io in
sorted(component_to_input_or_output.items())]`). -/
def uidKeyOf (st : DState) (stoichMap : List (PyStr × Int))
    (component : List PyStr) : UKey :=
  let d := buildComponentDicts st stoichMap component
  (sortItems d.1).map (fun p => (p.1, p.2, lookupD d.2 p.1 1))

/-- One step of the row-building loop of
`get_uids_for_iterproduct_components`: one dict item becomes one mapping
row, threading the reference-entity cache. -/
def appendRowsStep (env : Env) (uid reactomeId : PyStr)
    (stoichDict : List (PyStr × Int)) (acc : DState × List Row)
    (p : PyStr × PyStr) : DState × List Row :=
  let s := lookupD stoichDict p.1 1
  let cr := get_component_id_or_reference_entity_id env acc.1 p.1
  (cr.2, acc.2 ++ [{
    uid := uid, componentId := p.1, reactomeId := reactomeId,
    compOrRef := cr.1,
    ioUid := if is_valid_uuid p.2 then some p.2 else none,
    ioReactomeId := if is_valid_uuid p.2 then none else some p.2,
    stoich := s, entityStoich := s, componentStoich := s }])

/-- Append the mapping-table rows for one minted uid, iterating the dict
items in insertion order and threading the reference-entity cache. -/
def appendComponentRows (env : Env) (uid reactomeId : PyStr)
    (items : List (PyStr × PyStr)) (stoichDict : List (PyStr × Int))
    (st : DState) : DState :=
  let stRows := items.foldl (appendRowsStep env uid reactomeId stoichDict) (st, [])
  { stRows.1 with mapping := stRows.1.mapping ++ stRows.2 }

/-- The per-tuple body of `get_uids_for_iterproduct_components`: build the
component dict, hash the sorted key, append the rows, return the uid. -/
def processTuple (env : Env) (reactomeId : PyStr) (stoichMap : List (PyStr × Int))
    (st : DState) (component : List PyStr) : PyStr × DState :=
  let d := buildComponentDicts st stoichMap component
  let key := (sortItems d.1).map (fun p => (p.1, p.2, lookupD d.2 p.1 1))
  let m := shaMint st key
  (m.1, appendComponentRows env m.1 reactomeId d.1 d.2 m.2)

/-- Model of `get_uids_for_iterproduct_components`: fold `processTuple`
over the cartesian tuples, collecting the minted uids into a set. -/
def get_uids_for_iterproduct_components (env : Env)
    (iterproduct_components : List (List PyStr)) (reactomeId : PyStr)
    (stoichMap : List (PyStr × Int)) (st : DState) : List PyStr × DState :=
  iterproduct_components.foldl
    (fun acc comp =>
      let r := processTuple env reactomeId stoichMap acc.2 comp
      (setAdd acc.1 r.1, r.2))
    ([], st)

/-- A member of the `broken_apart_members` argument of
`get_broken_apart_ids`: either a bare string or a Python set of strings
(the code normalizes scalars by wrapping them in singleton sets). -/
inductive PyMember where
  | scalar (s : PyStr)
  | mset (l : List PyStr)
deriving DecidableEq, Repr

/-- Whether a member is a Python `set` (the `isinstance(member, set)` test). -/
def PyMember.isSet : PyMember → Bool
  | .scalar _ => false
  | .mset _ => true

/-- The per-member row-building body of the non-combinatorial (flat) branch
of `get_broken_apart_ids`; the `.mset` case is unreachable there (the flat
branch runs only when no member is a set) and contributes nothing. -/
def flatMemberRows (env : Env) (uid reactomeId : PyStr)
    (stoichMap : List (PyStr × Int)) (m : PyMember)
    (acc : DState × List Row) : DState × List Row :=
  match m with
  | .mset _ => acc
  | .scalar member =>
      if is_valid_uuid member then
        ((acc.1.mapping.filter (fun r => r.uid = member)).map (·.componentId)).foldl
          (fun acc2 cid =>
            let s := lookupD stoichMap cid 1
            let cr := get_component_id_or_reference_entity_id env acc2.1 cid
            (cr.2, acc2.2 ++ [{
              uid := uid, componentId := cid, reactomeId := reactomeId,
              compOrRef := cr.1, ioUid := some member, ioReactomeId := none,
              stoich := s, entityStoich := s, componentStoich := 1 }]))
          acc
      else
        let s := lookupD stoichMap member 1
        let cr := get_component_id_or_reference_entity_id env acc.1 member
        (cr.2, acc.2 ++ [{
          uid := uid, componentId := member, reactomeId := reactomeId,
          compOrRef := cr.1, ioUid := none, ioReactomeId := some member,
          stoich := s, entityStoich := s, componentStoich := 1 }])

/-- Model of `get_broken_apart_ids`.  If any member is a set, wrap scalars
into singleton sets, take the cartesian product across members, convert
each tuple to a set and mint content-addressed uids for them; otherwise
mint one fresh random UUID as a per-call grouping tag and append one row
per member under it. -/
def get_broken_apart_ids (env : Env) (broken_apart_members : List PyMember)
    (reactomeId : PyStr) (stoichMap : List (PyStr × Int)) (st : DState) :
    List PyStr × DState :=
  if broken_apart_members.any PyMember.isSet then
    let newMembers := broken_apart_members.map
      (fun m => match m with | .scalar s => [s] | .mset l => l)
    let tuples := listProd newMembers
    let tupleSets := tuples.map pySet
    get_uids_for_iterproduct_components env tupleSets reactomeId stoichMap st
  else
    let uid := PyStr.u4 st.uuidCount
    let st1 := { st with uuidCount := st.uuidCount + 1 }
    let stRows := broken_apart_members.foldl
      (fun acc m => flatMemberRows env uid reactomeId stoichMap m acc) (st1, [])
    ([uid], { stRows.1 with mapping := stRows.1.mapping ++ stRows.2 })

/-- The pandas comparison `decomposed_uid_mapping["reactome_id"] == entity_id`
in `break_apart_entity_standard` compares the string values stored in that
column (all rows are written with `reactome_id = str(...)`) against the
Python `int` argument; `str == int` is `False` in Python, so the
memoization guard never matches a row. -/
def pyEqStrInt (_s : PyStr) (_n : Nat) : Bool := false

/-- The elementary capability labels of `break_apart_entity_standard`. -/
def elementaryLabels : List String :=
  ["ChemicalDrug", "Drug", "EntityWithAccessionedSequence",
   "GenomeEncodedEntity", "OtherEntity", "Polymer", "SimpleEntity"]

/-- The functional-equivalence wrapper `break_apart_entity` around a given
decomposition function: entity `68524` (the configured ubiquitin group, the
sole entry of `FUNCTIONAL_EQUIVALENT_GROUPS`) still runs the standard
decomposition for its side effects but returns the canonical representative
`{"68524"}`. -/
def feWrap (f : Nat → DState → List PyStr × DState) (entity_id : Nat)
    (st : DState) : List PyStr × DState :=
  if entity_id = 68524 then
    let r := f entity_id st
    ([PyStr.lit "68524"], r.2)
  else f entity_id st

/-- Model of `break_apart_entity_standard`, with recursion depth made
explicit as fuel (the source recursion is unguarded; exhausting fuel marks
the run crashed, standing for the interpreter's stack overflow).  Children
are decomposed through the functional-equivalence wrapper `feWrap`, exactly
as the source calls `break_apart_entity`. -/
def break_apart_entity_standard (env : Env) : Nat → Nat → DState → List PyStr × DState
  | 0, _, st => ([], { st with crashed := true })
  | fuel + 1, entity_id, st =>
    let labels := env.labels entity_id
    let filtered_rows := st.mapping.filter (fun r => pyEqStrInt r.reactomeId entity_id)
    if ("EntitySet" ∈ labels ∨ "Complex" ∈ labels) ∧ filtered_rows ≠ [] then
      (pySet ((filtered_rows.filterMap (·.ioUid)) ++
              (filtered_rows.filterMap (·.ioReactomeId))), st)
    else if "EntitySet" ∈ labels then
      if entity_id = 68524 then ([PyStr.lit (toString entity_id)], st)
      else if env.containsRef entity_id then ([PyStr.lit (toString entity_id)], st)
      else
        let r := (env.setMembers entity_id).foldl
          (fun (acc : List PyStr × DState) mid =>
            let p := feWrap (fun i s => break_apart_entity_standard env fuel i s) mid acc.2
            (acc.1 ++ p.1, p.2))
          ([], st)
        (pySet r.1, r.2)
    else if "Complex" ∈ labels then
      let component_data := env.complexComponents entity_id
      let component_stoichiometry := component_data.foldl
        (fun m cd => upsert m (PyStr.lit (toString cd.1)) cd.2) []
      let r := (component_data.map (·.1)).foldl
        (fun (acc : List PyMember × DState) mid =>
          let p := feWrap (fun i s => break_apart_entity_standard env fuel i s) mid acc.2
          (acc.1 ++ [PyMember.mset p.1], p.2))
        ([], st)
      get_broken_apart_ids env r.1 (PyStr.lit (toString entity_id))
        component_stoichiometry r.2
    else if labels.any (fun lb => elementaryLabels.contains lb) then
      ([PyStr.lit (toString entity_id)], st)
    else ([], { st with crashed := true })

/-- Model of `break_apart_entity`: the functional-equivalence wrapper
applied to the standard decomposition. -/
def break_apart_entity (env : Env) (fuel : Nat) (entity_id : Nat) (st : DState) :
    List PyStr × DState :=
  feWrap (fun i s => break_apart_entity_standard env fuel i s) entity_id st

/-- The per-cell matching-component set of `create_raw_counts_matrix`:
the component ids shared by the two decompositions, augmented by the
reference-entity credit — a non-overlapping input component and a
non-overlapping output component that resolve to the same reference entity
are both added to the matching set. -/
def matchingComponents (env : Env) (mapping : List Row) (hin h_out : PyStr) :
    Finset PyStr :=
  let ic := ((mapping.filter (fun r => r.uid = hin)).map (·.componentId)).toFinset
  let oc := ((mapping.filter (fun r => r.uid = h_out)).map (·.componentId)).toFinset
  let m0 := ic ∩ oc
  let nonIn := ic \ m0
  let nonOut := oc \ m0
  m0 ∪ nonIn.filter (fun i => ∃ o ∈ nonOut, env.sameRef i o = true)
     ∪ nonOut.filter (fun o => ∃ i ∈ nonIn, env.sameRef i o = true)

/-- One cell of the raw counts matrix: `len(matching_components)`. -/
def rawCount (env : Env) (mapping : List Row) (hin h_out : PyStr) : Nat :=
  (matchingComponents env mapping hin h_out).card

/-- The cell of the counts matrix at list positions `(i, j)`
(`create_raw_counts_matrix` over the listified input/output sets). -/
def countsCell (env : Env) (mapping : List Row) (ir outr : List PyStr)
    (i j : Nat) : Nat :=
  rawCount env mapping (ir.getD i (PyStr.lit "")) (outr.getD j (PyStr.lit ""))

/-- The zero-padded square counts matrix of
`find_best_match_both_decomposed_reactions` (real cell inside the
`n × m` region, `0` in the padding). -/
def paddedCell (env : Env) (mapping : List Row) (ir outr : List PyStr)
    (i j : Nat) : Nat :=
  if i < ir.length ∧ j < outr.length then countsCell env mapping ir outr i j else 0

/-- Total (negated-count) cost of a candidate assignment on the padded
square matrix. -/
def totalCost (d : Nat) (cost : Fin d → Fin d → Int) (f : Fin d → Fin d) : Int :=
  ∑ i : Fin d, cost i (f i)

/-- A candidate assignment given by its value vector (`v.getD i i` is the
image of row `i`; the fallback is never reached for full-length vectors). -/
def vecToFun (d : Nat) (v : List (Fin d)) : Fin d → Fin d :=
  fun i => v.getD i.val i

/-- All injective (one-to-one) assignments on the padded square matrix,
enumerated as the injective members of the full function space. -/
def allAssignments (d : Nat) : List (Fin d → Fin d) :=
  ((listProd (List.replicate d (List.finRange d))).map (vecToFun d)).filter
    (fun f => decide (Function.Injective f))

/-- Modelled from the spec: `scipy.optimize.linear_sum_assignment` (an
external library routine, not part of this repository) is "an optimal
(Hungarian / linear-sum-assignment) algorithm for minimum cost"; it is
modelled as the minimum-total-cost injective assignment on the square cost
matrix, picked by a fold over all candidates starting from the identity. -/
def linear_sum_assignment (d : Nat) (cost : Fin d → Fin d → Int) : Fin d → Fin d :=
  (allAssignments d).foldl
    (fun best f => if totalCost d cost f < totalCost d cost best then f else best) id

/-- The square dimension `max(num_rows, num_cols)` after padding. -/
def padDim (ir outr : List PyStr) : Nat := max ir.length outr.length

/-- The optimal assignment computed inside
`find_best_match_both_decomposed_reactions` on the negated padded matrix. -/
def bestAssignment (env : Env) (mapping : List Row) (ir outr : List PyStr) :
    Fin (padDim ir outr) → Fin (padDim ir outr) :=
  linear_sum_assignment (padDim ir outr)
    (fun i j => -(paddedCell env mapping ir outr i.val j.val : Int))

/-- The surviving index pairs: assignments in the real (non-padded) region,
in row order (`[(i, j) for i, j in zip(row_indices, col_indices) if
i < num_rows and j < num_cols]`). -/
def matchedIndexPairs (env : Env) (mapping : List Row) (ir outr : List PyStr) :
    List (Nat × Nat) :=
  ((List.finRange (padDim ir outr)).filter
      (fun i => decide (i.val < ir.length) &&
                decide ((bestAssignment env mapping ir outr i).val < outr.length))).map
    (fun i => (i.val, (bestAssignment env mapping ir outr i).val))

/-- Model of `find_best_match_both_decomposed_reactions`: the surviving
`(input_id, output_id)` pairs and their raw overlap counts.  The Python
function receives the combination sets and listifies them
(`list(input_reactions)`); the model takes those lists directly. -/
def find_best_match_both_decomposed_reactions (env : Env) (mapping : List Row)
    (ir outr : List PyStr) : List (PyStr × PyStr) × List Nat :=
  let pairs := matchedIndexPairs env mapping ir outr
  (pairs.map (fun p => (ir.getD p.1 (PyStr.lit ""), outr.getD p.2 (PyStr.lit ""))),
   pairs.map (fun p => countsCell env mapping ir outr p.1 p.2))

/-- Argument to `find_best_reaction_match`: either a single string or a
collection, which the wrapper normalizes to a collection. -/
inductive StrOrSet where
  | one (s : PyStr)
  | many (l : List PyStr)

/-- Model of `find_best_reaction_match`: normalize a scalar argument to a
one-element collection, then delegate. -/
def find_best_reaction_match (env : Env) (mapping : List Row)
    (ir outr : StrOrSet) : List (PyStr × PyStr) × List Nat :=
  let irl := match ir with | .one s => [s] | .many l => l
  let outl := match outr with | .one s => [s] | .many l => l
  find_best_match_both_decomposed_reactions env mapping irl outl

/-- A row of the `decomposed_uid_mapping` table at the Assembler boundary
(`logic_network_generator.py`).  Matching the repository's own tests and
the CSV round-trip of the cached tables, `reactome_id` and
`input_or_output_reactome_id` are integer-typed there. -/
structure MRow where
  uid : String
  reactome_id : Int
  input_or_output_uid : Option String
  input_or_output_reactome_id : Option Int
deriving DecidableEq, Repr

/-- A row of the `best_matches` table: one optimal input/output pairing. -/
structure BMRow where
  incomming : String
  outgoing : String
deriving DecidableEq, Repr

/-- A row of the `reaction_connections` table (the nullable pair of
preceding/following reaction ids). -/
structure RCRow where
  preceding_reaction_id : Option Int
  following_reaction_id : Option Int
deriving DecidableEq, Repr

/-- A pandas DataFrame at the Assembler boundary: its column labels plus
its typed rows (`df.empty` is "no rows"). -/
structure PyTable (α : Type) where
  columns : List String
  rows : List α
deriving DecidableEq, Repr

/-- The `best_matches` argument of `create_pathway_logic_network` may be a
DataFrame or any other iterable (the code validates only the DataFrame
case). -/
inductive BestMatchesInput where
  | df (t : PyTable BMRow)
  | listLike (l : List BMRow)
deriving DecidableEq, Repr

/-- The error outcomes of the Assembler: the eager `ValueError`s of input
validation (empty table, or an explicit enumeration of missing columns)
and the `IndexError`/`AttributeError` raised by lookups deeper in the
pipeline. -/
inductive NetError where
  | emptyTable (table : String)
  | missingColumns (table : String) (missing : List String)
  | indexError (fn : String)
  | attributeError (fn : String)
deriving DecidableEq, Repr

/-- One emitted logic-network edge. -/
structure PyEdge where
  source_id : PyStr
  target_id : PyStr
  pos_neg : String
  and_or : String
  edge_type : String
deriving DecidableEq, Repr

/-- A row of the virtual-reaction `reaction_id_map`. -/
structure RIMRow where
  uid : PyStr
  reactome_id : Int
  input_hash : String
  output_hash : String
deriving DecidableEq, Repr

/-- A catalyst/regulator record as accumulated by
`get_catalysts_for_reaction` / `_execute_regulator_query`: only the fresh
per-record UUID and the owning virtual-reaction UUID flow into edges. -/
structure CatRow where
  uuid : PyStr
  reaction_uuid : PyStr
deriving DecidableEq, Repr

/-- The graph queries consumed by the Assembler: catalyst ids per reaction
and the number of positive/negative regulator records per reaction (the
record contents beyond their count are discarded by
`_execute_regulator_query`, which replaces the physical entity by a fresh
UUID). -/
structure GraphEnv where
  catalysts : Int → List Int
  posRegCount : Int → Nat
  negRegCount : Int → Nat

/-- Model of `_get_reactome_id_from_hash`: the `reactome_id` of the first
mapping row whose `uid` equals the hash (`.values[0]`, an `IndexError`
when absent). -/
def _get_reactome_id_from_hash (mapping : List MRow) (h : String) :
    Except NetError Int :=
  match mapping.find? (fun r => decide (r.uid = h)) with
  | some r => .ok r.reactome_id
  | none => .error (.indexError "_get_reactome_id_from_hash")

/-- Model of `create_reaction_id_map`: one virtual reaction per best-match
row, each with a freshly minted UUID (`uuid.uuid4()`, modelled by the
strictly increasing counter). -/
def create_reaction_id_map (mapping : List MRow) :
    List BMRow → Nat → Except NetError (List RIMRow × Nat)
  | [], c => .ok ([], c)
  | m :: rest, c =>
    match _get_reactome_id_from_hash mapping m.incomming with
    | .error e => .error e
    | .ok rid =>
      match create_reaction_id_map mapping rest (c + 1) with
      | .error e => .error e
      | .ok (rows, c') =>
          .ok ({ uid := PyStr.u4 c, reactome_id := rid,
                 input_hash := m.incomming, output_hash := m.outgoing } :: rows, c')

/-- Mint `k` consecutive fresh UUIDs starting at counter `c`. -/
def mintN (c k : Nat) : List PyStr × Nat :=
  ((List.range k).map (fun i => PyStr.u4 (c + i)), c + k)

/-- Model of `get_catalysts_for_reaction`: per virtual reaction, one record
per catalyst returned by the graph query, each tagged with a fresh UUID. -/
def get_catalysts_for_reaction (genv : GraphEnv) :
    List RIMRow → Nat → List CatRow × Nat
  | [], c => ([], c)
  | r :: rest, c =>
    let m := mintN c (genv.catalysts r.reactome_id).length
    let tail := get_catalysts_for_reaction genv rest m.2
    (m.1.map (fun u => { uuid := u, reaction_uuid := r.uid }) ++ tail.1, tail.2)

/-- Model of `_execute_regulator_query` folded over the reaction map
(`get_negative_regulators_for_reaction`): one record per regulator hit,
the physical entity replaced by a fresh UUID. -/
def get_negative_regulators_for_reaction (genv : GraphEnv) :
    List RIMRow → Nat → List CatRow × Nat
  | [], c => ([], c)
  | r :: rest, c =>
    let m := mintN c (genv.negRegCount r.reactome_id)
    let tail := get_negative_regulators_for_reaction genv rest m.2
    (m.1.map (fun u => { uuid := u, reaction_uuid := r.uid }) ++ tail.1, tail.2)

/-- Model of `get_positive_regulators_for_reaction`, as for the negative
ones. -/
def get_positive_regulators_for_reaction (genv : GraphEnv) :
    List RIMRow → Nat → List CatRow × Nat
  | [], c => ([], c)
  | r :: rest, c =>
    let m := mintN c (genv.posRegCount r.reactome_id)
    let tail := get_positive_regulators_for_reaction genv rest m.2
    (m.1.map (fun u => { uuid := u, reaction_uuid := r.uid }) ++ tail.1, tail.2)

/-- Model of `create_uid_reaction_connections`: resolve each best-match
pair's incoming and outgoing hashes to reaction ids, then to virtual
reaction UIDs through the `dict(zip(reactome_id, uid))` mapping (later rows
overwrite earlier ones); drop the pair when either lookup misses. -/
def create_uid_reaction_connections (ridmap : List RIMRow) (bm : List BMRow)
    (mapping : List MRow) : Except NetError (List (PyStr × PyStr)) :=
  let d := ridmap.foldl (fun m r => upsert m r.reactome_id r.uid)
    ([] : List (Int × PyStr))
  let rec go : List BMRow → Except NetError (List (PyStr × PyStr))
    | [] => .ok []
    | m :: rest =>
      match _get_reactome_id_from_hash mapping m.incomming with
      | .error e => .error e
      | .ok p =>
        match _get_reactome_id_from_hash mapping m.outgoing with
        | .error e => .error e
        | .ok f =>
          match go rest with
          | .error e => .error e
          | .ok conns =>
            match alookup d p, alookup d f with
            | some pu, some fu => .ok ((pu, fu) :: conns)
            | _, _ => .ok conns
  go bm

/-- Model of `_get_hash_for_reaction` (`.iloc[0]`, `IndexError` if the UID
has no row). -/
def _get_hash_for_reaction (ridmap : List RIMRow) (uid : PyStr)
    (hash_type : String) : Except NetError String :=
  match ridmap.find? (fun r => decide (r.uid = uid)) with
  | some r => .ok (if hash_type = "output_hash" then r.output_hash else r.input_hash)
  | none => .error (.indexError "_get_hash_for_reaction")

/-- Model of `_extract_uid_and_reactome_values`: the non-null
`input_or_output_uid` and `input_or_output_reactome_id` values of the rows
under the given hash. -/
def _extract_uid_and_reactome_values (mapping : List MRow) (h : String) :
    List String × List Int :=
  let filtered := mapping.filter (fun r => decide (r.uid = h))
  (filtered.filterMap (·.input_or_output_uid),
   filtered.filterMap (·.input_or_output_reactome_id))

/-- Model of `_assign_uuids`: memoized UUID per reactome id via
`dict.setdefault`.  The `str(uuid.uuid4())` argument is evaluated eagerly
even on a cache hit, so the counter advances on every call. -/
def _assign_uuids : List Int → List (Int × PyStr) → Nat →
    List PyStr × List (Int × PyStr) × Nat
  | [], cache, c => ([], cache, c)
  | rid :: rest, cache, c =>
    let hit := alookup cache rid
    let v := hit.getD (PyStr.u4 c)
    let cache' := if hit.isSome then cache else cache ++ [(rid, PyStr.u4 c)]
    let r := _assign_uuids rest cache' (c + 1)
    (v :: r.1, r.2.1, r.2.2)

/-- Model of `_determine_edge_properties`: more than one preceding virtual
reaction gives `("or", "output")`, otherwise `("and", "input")`. -/
def _determine_edge_properties (num_preceding_reactions : Nat) : String × String :=
  if num_preceding_reactions > 1 then ("or", "output") else ("and", "input")

/-- Model of `_add_pathway_connections`: the full cartesian product of
input UUIDs against output UUIDs, each edge `pos` with the given AND/OR
annotation. -/
def _add_pathway_connections (input_uuids output_uuids : List PyStr)
    (and_or edge_type : String) : List PyEdge :=
  input_uuids.foldr
    (fun iu acc =>
      output_uuids.map (fun ou =>
        { source_id := iu, target_id := ou, pos_neg := "pos",
          and_or := and_or, edge_type := edge_type }) ++ acc)
    []

/-- The inner loop of `extract_inputs_and_outputs` for one reaction and its
list of preceding virtual reactions: per preceding UID, resolve the output
hash, assign memoized UUIDs to the leaf reactome ids of both sides, pick
the AND/OR annotation from the total preceding count, and emit the
cartesian product of edges. -/
def processPreceding (ridmap : List RIMRow) (mapping : List MRow)
    (inRids : List Int) (numPreceding : Nat) :
    List PyStr → List (Int × PyStr) → Nat →
    Except NetError (List PyEdge × List (Int × PyStr) × Nat)
  | [], cache, c => .ok ([], cache, c)
  | p :: rest, cache, c =>
    match _get_hash_for_reaction ridmap p "output_hash" with
    | .error e => .error e
    | .ok output_hash =>
      let ov := _extract_uid_and_reactome_values mapping output_hash
      let ain := _assign_uuids inRids cache c
      let aout := _assign_uuids ov.2 ain.2.1 ain.2.2
      let props := _determine_edge_properties numPreceding
      let edges := _add_pathway_connections ain.1 aout.1 props.1 props.2
      match processPreceding ridmap mapping inRids numPreceding rest aout.2.1 aout.2.2 with
      | .error e => .error e
      | .ok (tailEdges, cache', c') => .ok (edges ++ tailEdges, cache', c')

/-- The per-reaction body of `extract_inputs_and_outputs`: look up the
reaction's input hash and leaves, collect its preceding UIDs from the
uid-level connections, and process each preceding UID. -/
def processReaction (ridmap : List RIMRow) (conns : List (PyStr × PyStr))
    (mapping : List MRow) (reaction_uid : PyStr) (cache : List (Int × PyStr))
    (c : Nat) : Except NetError (List PyEdge × List (Int × PyStr) × Nat) :=
  match _get_hash_for_reaction ridmap reaction_uid "input_hash" with
  | .error e => .error e
  | .ok input_hash =>
    let iv := _extract_uid_and_reactome_values mapping input_hash
    let preceding_uids := (conns.filter (fun pc => decide (pc.2 = reaction_uid))).map (·.1)
    processPreceding ridmap mapping iv.2 preceding_uids.length preceding_uids cache c

/-- Model of `extract_inputs_and_outputs`: fold the per-reaction body over
all virtual-reaction UIDs, threading the reactome-id-to-UUID cache and the
accumulated edge list. -/
def extract_inputs_and_outputs (ridmap : List RIMRow)
    (conns : List (PyStr × PyStr)) (mapping : List MRow) :
    List PyStr → List (Int × PyStr) → Nat →
    Except NetError (List PyEdge × List (Int × PyStr) × Nat)
  | [], cache, c => .ok ([], cache, c)
  | ru :: rest, cache, c =>
    match processReaction ridmap conns mapping ru cache c with
    | .error e => .error e
    | .ok (edges, cache', c') =>
      match extract_inputs_and_outputs ridmap conns mapping rest cache' c' with
      | .error e => .error e
      | .ok (tailEdges, cache'', c'') => .ok (edges ++ tailEdges, cache'', c'')

/-- Model of `append_regulators`: append one edge per catalyst record
(`pos`/`catalyst`), per negative regulator (`neg`/`regulator`) and per
positive regulator (`pos`/`regulator`); the `reactome_id_to_uuid` cache
parameter is accepted but never consulted, and `and_or` is whatever the
caller passes (the empty string in `create_pathway_logic_network`). -/
def append_regulators (catalyst_map negative_regulator_map
    positive_regulator_map : List CatRow)
    (pathway_logic_network_data : List PyEdge)
    (_reactome_id_to_uuid : List (Int × PyStr)) (and_or _edge_type : String) :
    List PyEdge :=
  pathway_logic_network_data ++
    catalyst_map.map (fun r =>
      { source_id := r.uuid, target_id := r.reaction_uuid, pos_neg := "pos",
        and_or := and_or, edge_type := "catalyst" }) ++
    negative_regulator_map.map (fun r =>
      { source_id := r.uuid, target_id := r.reaction_uuid, pos_neg := "neg",
        and_or := and_or, edge_type := "regulator" }) ++
    positive_regulator_map.map (fun r =>
      { source_id := r.uuid, target_id := r.reaction_uuid, pos_neg := "pos",
        and_or := and_or, edge_type := "regulator" })

/-- Required columns of `decomposed_uid_mapping` at the Assembler boundary. -/
def requiredMappingCols : List String :=
  ["uid", "reactome_id", "input_or_output_reactome_id"]

/-- Required columns of `reaction_connections`. -/
def requiredConnectionCols : List String :=
  ["preceding_reaction_id", "following_reaction_id"]

/-- Required columns of `best_matches`. -/
def requiredMatchCols : List String := ["incomming", "outgoing"]

/-- The eager input-validation phase at the top of
`create_pathway_logic_network`, in source order: emptiness then
column-presence for `decomposed_uid_mapping`, then `reaction_connections`,
then (only when it is a DataFrame) `best_matches`.  A failure raises a
`ValueError` that enumerates the missing columns. -/
def validate_inputs (dum : PyTable MRow) (rc : PyTable RCRow)
    (bm : BestMatchesInput) : Except NetError Unit :=
  if dum.rows = [] then .error (.emptyTable "decomposed_uid_mapping")
  else
    let missing1 := requiredMappingCols.filter (fun col => col ∉ dum.columns)
    if missing1 ≠ [] then .error (.missingColumns "decomposed_uid_mapping" missing1)
    else if rc.rows = [] then .error (.emptyTable "reaction_connections")
    else
      let missing2 := requiredConnectionCols.filter (fun col => col ∉ rc.columns)
      if missing2 ≠ [] then .error (.missingColumns "reaction_connections" missing2)
      else
        match bm with
        | .listLike _ => .ok ()
        | .df t =>
          if t.rows = [] then .error (.emptyTable "best_matches")
          else
            let missing3 := requiredMatchCols.filter (fun col => col ∉ t.columns)
            if missing3 ≠ [] then .error (.missingColumns "best_matches" missing3)
            else .ok ()

/-- The network-construction phase of `create_pathway_logic_network`
(everything after validation): build the virtual-reaction map, the
catalyst/regulator maps, the uid-level connections, the main edges, and
finally append the regulator edges with an empty `and_or`.  A
non-DataFrame `best_matches` has no `.iterrows` and fails in
`create_reaction_id_map`. -/
def buildNetwork (genv : GraphEnv) (dum : PyTable MRow) (_rc : PyTable RCRow)
    (bm : BestMatchesInput) : Except NetError (List PyEdge) :=
  match bm with
  | .listLike _ => .error (.attributeError "create_reaction_id_map")
  | .df t =>
    match create_reaction_id_map dum.rows t.rows 0 with
    | .error e => .error e
    | .ok (ridmap, c1) =>
      let cat := get_catalysts_for_reaction genv ridmap c1
      let neg := get_negative_regulators_for_reaction genv ridmap cat.2
      let pos := get_positive_regulators_for_reaction genv ridmap neg.2
      match create_uid_reaction_connections ridmap t.rows dum.rows with
      | .error e => .error e
      | .ok conns =>
        let reaction_uids := pySet (conns.foldl (fun acc pc => acc ++ [pc.1, pc.2]) [])
        match extract_inputs_and_outputs ridmap conns dum.rows reaction_uids [] pos.2 with
        | .error e => .error e
        | .ok (mainEdges, cache, _) =>
          .ok (append_regulators cat.1 neg.1 pos.1 mainEdges cache "" "")

/-- Model of `create_pathway_logic_network`: eager validation followed by
network construction. -/
def create_pathway_logic_network (genv : GraphEnv) (dum : PyTable MRow)
    (rc : PyTable RCRow) (bm : BestMatchesInput) : Except NetError (List PyEdge) :=
  match validate_inputs dum rc bm with
  | .error e => .error e
  | .ok _ => buildNetwork genv dum rc bm

/-- Concrete collaborator environment used by the counterexamples and
witnesses: elementary entities 1, 2, 3; complex 100 = {1, 2}; complex
101 = {complex 100, 3}; complex 102 = {1, 2, 3}; complex 200 = {1, 2};
entity sets 10 and 20 both = {1, 2}; complex 300 = {set 10, set 20}. -/
def envA : Env :=
  { labels := fun id =>
      if id = 100 ∨ id = 101 ∨ id = 102 ∨ id = 200 ∨ id = 300 then ["Complex"]
      else if id = 10 ∨ id = 20 then ["EntitySet"]
      else ["SimpleEntity"],
    setMembers := fun id => if id = 10 then [1, 2] else if id = 20 then [1, 2] else [],
    complexComponents := fun id =>
      if id = 100 then [(1, 1), (2, 1)]
      else if id = 101 then [(100, 1), (3, 1)]
      else if id = 102 then [(1, 1), (2, 1), (3, 1)]
      else if id = 200 then [(1, 1), (2, 1)]
      else if id = 300 then [(10, 1), (20, 1)]
      else [],
    containsRef := fun _ => false,
    refEntityId := fun _ => none,
    sameRef := fun _ _ => false }

/-- The multiset of `(component_id, stoichiometry)` pairs a decomposition
hash resolves to: the rows registered under it in the mapping table. -/
def elemMultiset (st : DState) (u : PyStr) : Multiset (PyStr × Int) :=
  ((st.mapping.filter (fun r => r.uid = u)).map (fun r => (r.componentId, r.stoich)) :
    List (PyStr × Int))

/-- Concrete Assembler input: one reaction (id 1) whose input combination
`hin` has leaves 1001 and 1002 and whose output combination `hout` has
leaves 1001 and 1003 (entity 1001 appears on both sides). -/
def dumA : PyTable MRow :=
  { columns := ["uid", "reactome_id", "component_id",
                "component_id_or_reference_entity_id", "input_or_output_uid",
                "input_or_output_reactome_id", "stoichiometry"],
    rows := [
      { uid := "hin", reactome_id := 1, input_or_output_uid := none,
        input_or_output_reactome_id := some 1001 },
      { uid := "hin", reactome_id := 1, input_or_output_uid := none,
        input_or_output_reactome_id := some 1002 },
      { uid := "hout", reactome_id := 1, input_or_output_uid := none,
        input_or_output_reactome_id := some 1001 },
      { uid := "hout", reactome_id := 1, input_or_output_uid := none,
        input_or_output_reactome_id := some 1003 }] }

/-- Concrete reaction-connections table for the one-reaction example. -/
def rcA : PyTable RCRow :=
  { columns := ["preceding_reaction_id", "following_reaction_id"],
    rows := [{ preceding_reaction_id := some 1, following_reaction_id := some 1 }] }

/-- Concrete best-matches table: the single optimal pairing of `hin` with
`hout`. -/
def bmA : BestMatchesInput :=
  .df { columns := ["incomming", "outgoing"],
        rows := [{ incomming := "hin", outgoing := "hout" }] }

/-- Graph environment with no catalysts or regulators. -/
def genv0 : GraphEnv :=
  { catalysts := fun _ => [], posRegCount := fun _ => 0, negRegCount := fun _ => 0 }

/-- Graph environment for the regulator example: reaction 1 has one
catalyst and one negative regulator. -/
def genvR : GraphEnv :=
  { catalysts := fun rid => if rid = 1 then [55] else [],
    posRegCount := fun _ => 0,
    negRegCount := fun rid => if rid = 1 then 1 else 0 }

deriving instance DecidableEq for Except

/-- Sequential decomposition of a list of entities, threading the run
state in order and collecting each entity's own decomposition result
(the member loop of the EntitySet branch, seen per member). -/
def decompose_list (env : Env) (fuel : Nat) : List Nat → DState → List (List PyStr) × DState
  | [], st => ([], st)
  | m :: rest, st =>
    let p := break_apart_entity env fuel m st
    let r := decompose_list env fuel rest p.2
    (p.1 :: r.1, r.2)

/-- The hash-cons table of `b` extends that of `a` (append-only growth
within one run). -/
def keyTableExtends (a b : DState) : Prop :=
  ∃ t, b.hashKeys = a.hashKeys ++ t

/-- A main-pathway edge: `edge_type` not in `{catalyst, regulator}`. -/
def mainEdge (e : PyEdge) : Prop :=
  e.edge_type ≠ "catalyst" ∧ e.edge_type ≠ "regulator"

instance (e : PyEdge) : Decidable (mainEdge e) := by
  unfold mainEdge; infer_instance

/-- C1, counterexample.  Claim C1 states the Decomposition Hash is a
function only of the resolved elementary multiset.  In one run, complex
101 = {complex 100 = {1, 2}, 3} and complex 102 = {1, 2, 3} both resolve
to the elementary multiset {(1, 1), (2, 1), (3, 1)}, yet the Decomposer
assigns them different hashes (`sha 1` versus `sha 2`), because the hash
key records the `input_or_output` pointer of each component and the nested
complex contributes its own hash as that pointer. -/
theorem C1_counterexample :
    elemMultiset (break_apart_entity envA 10 102 (break_apart_entity envA 10 101 initState).2).2
        (PyStr.sha 1) =
      elemMultiset (break_apart_entity envA 10 102 (break_apart_entity envA 10 101 initState).2).2
        (PyStr.sha 2) ∧
    (break_apart_entity envA 10 101 initState).1 = [PyStr.sha 1] ∧
    (break_apart_entity envA 10 102 (break_apart_entity envA 10 101 initState).2).1 =
      [PyStr.sha 2] ∧
    PyStr.sha 1 ≠ PyStr.sha 2 := by
  refine ⟨by decide, by decide, by decide, by decide⟩

/-- C3, counterexample.  Complex 300 has two component slots, the entity
sets 10 and 20, each decomposing to the two alternatives {"1", "2"}
(slot sizes 2 × 2 = 4), yet only 3 Decomposition Hashes are registered:
the tuples ("1", "2") and ("2", "1") are converted to Python sets before
hashing and collapse to the same hash. -/
theorem C3_counterexample :
    (break_apart_entity envA 10 10 initState).1.length = 2 ∧
    (break_apart_entity envA 10 20 initState).1.length = 2 ∧
    (break_apart_entity envA 10 300 initState).1.length = 3 ∧
    (break_apart_entity envA 10 300 initState).1.length ≠ 2 * 2 := by
  refine ⟨by decide, by decide, by decide, by decide⟩

/-- C6, counterexample.  Complex 200 has the two elementary components 1
and 2, so every component slot decomposes to a single non-composite
elementary id; the claim says the Decomposer then returns {entity_id}
without minting anything, but the final revision has no such trivial
collapse: it returns the singleton content hash `sha 0` (not {"200"}) and
registers two new mapping rows. -/
theorem C6_counterexample :
    (break_apart_entity envA 10 200 initState).1 = [PyStr.sha 0] ∧
    (break_apart_entity envA 10 200 initState).1 ≠ [PyStr.lit "200"] ∧
    (break_apart_entity envA 10 200 initState).2.mapping.length = 2 ∧
    initState.mapping.length = 0 := by
  refine ⟨by decide, by decide, by decide, by decide⟩

/-- C7, failing input.  On the one-reaction tables `dumA`/`rcA`/`bmA`
(entity 1001 appears among both the input leaves and the output leaves of
the virtual reaction), `create_pathway_logic_network` emits the main
pathway edge `u4 1 → u4 1`: both endpoints are the memoized UUID of
entity 1001, a self-loop, contradicting the no-self-loop invariant claimed
by the spec and asserted by the repository's own
`test_no_self_loops_in_main_pathway`. -/
theorem C7_self_loop_failing_input :
    create_pathway_logic_network genv0 dumA rcA bmA =
      .ok [{ source_id := PyStr.u4 1, target_id := PyStr.u4 1, pos_neg := "pos",
             and_or := "and", edge_type := "input" },
           { source_id := PyStr.u4 1, target_id := PyStr.u4 4, pos_neg := "pos",
             and_or := "and", edge_type := "input" },
           { source_id := PyStr.u4 2, target_id := PyStr.u4 1, pos_neg := "pos",
             and_or := "and", edge_type := "input" },
           { source_id := PyStr.u4 2, target_id := PyStr.u4 4, pos_neg := "pos",
             and_or := "and", edge_type := "input" }] ∧
    mainEdge { source_id := PyStr.u4 1, target_id := PyStr.u4 1, pos_neg := "pos",
               and_or := "and", edge_type := "input" } ∧
    (PyStr.u4 1 : PyStr) = PyStr.u4 1 := by
  refine ⟨by decide, by decide, rfl⟩

theorem decompose_fold_eq (env : Env) (fuel : Nat) (mids : List Nat)
    (acc0 : List PyStr) (st : DState) :
    mids.foldl (fun (acc : List PyStr × DState) mid =>
        let p := feWrap (fun i s => break_apart_entity_standard env fuel i s) mid acc.2
        (acc.1 ++ p.1, p.2)) (acc0, st) =
      (acc0 ++ (decompose_list env fuel mids st).1.flatten,
       (decompose_list env fuel mids st).2) := by
  induction mids generalizing acc0 st with
  | nil => simp [decompose_list]
  | cons m rest ih =>
      simp only [List.foldl_cons, decompose_list, List.flatten]
      rw [ih]
      simp [break_apart_entity, List.append_assoc]

theorem pySet_append (a b : List PyStr) :
    pySet (a ++ b) = setUnion (pySet a) b := by
  simp [pySet, setUnion, List.foldl_append]

theorem pySet_join_foldl (ls : List (List PyStr)) :
    pySet ls.flatten = ls.foldl setUnion [] := by
  suffices h : ∀ (s : List PyStr),
      (ls.flatten.foldl setAdd s) = ls.foldl setUnion s by
    simpa [pySet] using h []
  induction ls with
  | nil => intro s; simp
  | cons l rest ih => intro s; simp [List.foldl_append, setUnion, ih]

/-- C4.  EntitySet union law: for an EntitySet to which neither
short-circuit applies (not the configured functional-equivalence entity
68524 and not containing a reference gene product/molecule/isoform), the
decomposition of the set is exactly the union of the decompositions of its
members, decomposed sequentially in member order (both the returned set of
elementary refs and the final run state agree). -/
theorem C4_entityset_union (env : Env) (fuel : Nat) (entity_id : Nat) (st : DState)
    (hset : "EntitySet" ∈ env.labels entity_id)
    (hne : entity_id ≠ 68524)
    (href : env.containsRef entity_id = false) :
    break_apart_entity env (fuel + 1) entity_id st =
      ((decompose_list env fuel (env.setMembers entity_id) st).1.foldl setUnion [],
       (decompose_list env fuel (env.setMembers entity_id) st).2) := by
  have hguard : ∀ (m : List Row),
      m.filter (fun r => pyEqStrInt r.reactomeId entity_id) = [] := by
    intro m; simp [pyEqStrInt]
  rw [break_apart_entity, feWrap, if_neg hne, break_apart_entity_standard]
  rw [hguard]
  simp only [ne_eq, not_true_eq_false, and_false, if_false]
  rw [if_pos hset, if_neg hne, href]
  simp only [Bool.false_eq_true, if_false]
  rw [decompose_fold_eq]
  simp [pySet_join_foldl]

/-- C4, witness: the union law applied to the concrete EntitySet 10 of
`envA` (members 1 and 2). -/
theorem C4_witness :
    break_apart_entity envA (9 + 1) 10 initState =
      ((decompose_list envA 9 (envA.setMembers 10) initState).1.foldl setUnion [],
       (decompose_list envA 9 (envA.setMembers 10) initState).2) :=
  C4_entityset_union envA 9 10 initState (by decide) (by decide) (by decide)

/-- C8.  `create_pathway_logic_network` validates its three input tables
eagerly and in order, before any construction: an empty
`decomposed_uid_mapping` or one missing required columns raises
immediately, with the missing columns enumerated; then likewise for
`reaction_connections`; then likewise for `best_matches` (a DataFrame).
Whenever validation fails the whole function returns that error, so no
reaction-id map is built and no edge is emitted; construction runs only
after validation passes. -/
theorem C8_eager_validation (genv : GraphEnv) (dum : PyTable MRow)
    (rc : PyTable RCRow) (bm : BestMatchesInput) :
    (dum.rows = [] →
      create_pathway_logic_network genv dum rc bm =
        .error (.emptyTable "decomposed_uid_mapping")) ∧
    (dum.rows ≠ [] → requiredMappingCols.filter (fun col => col ∉ dum.columns) ≠ [] →
      create_pathway_logic_network genv dum rc bm =
        .error (.missingColumns "decomposed_uid_mapping"
          (requiredMappingCols.filter (fun col => col ∉ dum.columns)))) ∧
    (dum.rows ≠ [] → requiredMappingCols.filter (fun col => col ∉ dum.columns) = [] →
      rc.rows = [] →
      create_pathway_logic_network genv dum rc bm =
        .error (.emptyTable "reaction_connections")) ∧
    (dum.rows ≠ [] → requiredMappingCols.filter (fun col => col ∉ dum.columns) = [] →
      rc.rows ≠ [] → requiredConnectionCols.filter (fun col => col ∉ rc.columns) ≠ [] →
      create_pathway_logic_network genv dum rc bm =
        .error (.missingColumns "reaction_connections"
          (requiredConnectionCols.filter (fun col => col ∉ rc.columns)))) ∧
    (∀ t, bm = .df t →
      dum.rows ≠ [] → requiredMappingCols.filter (fun col => col ∉ dum.columns) = [] →
      rc.rows ≠ [] → requiredConnectionCols.filter (fun col => col ∉ rc.columns) = [] →
      t.rows = [] →
      create_pathway_logic_network genv dum rc bm =
        .error (.emptyTable "best_matches")) ∧
    (∀ t, bm = .df t →
      dum.rows ≠ [] → requiredMappingCols.filter (fun col => col ∉ dum.columns) = [] →
      rc.rows ≠ [] → requiredConnectionCols.filter (fun col => col ∉ rc.columns) = [] →
      t.rows ≠ [] → requiredMatchCols.filter (fun col => col ∉ t.columns) ≠ [] →
      create_pathway_logic_network genv dum rc bm =
        .error (.missingColumns "best_matches"
          (requiredMatchCols.filter (fun col => col ∉ t.columns)))) ∧
    (validate_inputs dum rc bm = .ok () →
      create_pathway_logic_network genv dum rc bm = buildNetwork genv dum rc bm) := by
  have step : ∀ e, validate_inputs dum rc bm = .error e →
      create_pathway_logic_network genv dum rc bm = .error e := by
    intro e he; simp [create_pathway_logic_network, he]
  have conv1 : ∀ (req cols : List String), req.filter (fun col => col ∉ cols) ≠ [] →
      ∃ x ∈ req, x ∉ cols := by
    intro req cols h; simpa [List.filter_eq_nil_iff] using h
  have conv2 : ∀ (req cols : List String), req.filter (fun col => col ∉ cols) = [] →
      ¬ ∃ x ∈ req, x ∉ cols := by
    intro req cols h
    simp only [List.filter_eq_nil_iff, decide_eq_true_eq, not_not] at h
    push_neg
    exact h
  refine ⟨?_, ?_, ?_, ?_, ?_, ?_, ?_⟩
  · intro h1
    exact step _ (by simp [validate_inputs, h1])
  · intro h1 h2
    exact step _ (by simp [validate_inputs, h1, conv1 _ _ h2])
  · intro h1 h2 h3
    exact step _ (by simp [validate_inputs, h1, conv2 _ _ h2, h3])
  · intro h1 h2 h3 h4
    exact step _ (by simp [validate_inputs, h1, conv2 _ _ h2, h3, conv1 _ _ h4])
  · intro t ht h1 h2 h3 h4 h5
    subst ht
    exact step _ (by simp [validate_inputs, h1, conv2 _ _ h2, h3, conv2 _ _ h4, h5])
  · intro t ht h1 h2 h3 h4 h5 h6
    subst ht
    exact step _
      (by simp [validate_inputs, h1, conv2 _ _ h2, h3, conv2 _ _ h4, h5, conv1 _ _ h6])
  · intro hv
    simp [create_pathway_logic_network, hv]

/-- C8, witness: a mapping table missing all three required columns is
rejected with exactly those columns enumerated. -/
theorem C8_witness :
    create_pathway_logic_network genv0
        { columns := [], rows := dumA.rows } rcA bmA =
      .error (.missingColumns "decomposed_uid_mapping"
        ["uid", "reactome_id", "input_or_output_reactome_id"]) :=
  (C8_eager_validation genv0 { columns := [], rows := dumA.rows } rcA bmA).2.1
    (by decide) (by decide)

theorem add_pathway_connections_mem (iu ou : List PyStr) (ao et : String)
    (e : PyEdge) (he : e ∈ _add_pathway_connections iu ou ao et) :
    e.pos_neg = "pos" ∧ e.and_or = ao ∧ e.edge_type = et := by
  induction iu with
  | nil => simp [_add_pathway_connections] at he
  | cons i rest ih =>
      simp only [_add_pathway_connections, List.foldr_cons, List.mem_append,
        List.mem_map] at he
      rcases he with ⟨ou', _, rfl⟩ | hrest
      · exact ⟨rfl, rfl, rfl⟩
      · exact ih hrest

theorem processPreceding_mem (ridmap : List RIMRow) (mapping : List MRow)
    (inRids : List Int) (k : Nat) (ps : List PyStr) (cache : List (Int × PyStr))
    (c : Nat) (r : List PyEdge × List (Int × PyStr) × Nat)
    (hr : processPreceding ridmap mapping inRids k ps cache c = .ok r)
    (e : PyEdge) (he : e ∈ r.1) :
    e.pos_neg = "pos" ∧ e.and_or = (_determine_edge_properties k).1 ∧
      e.edge_type = (_determine_edge_properties k).2 := by
  induction ps generalizing cache c r with
  | nil =>
      simp only [processPreceding] at hr
      cases hr
      simp at he
  | cons p rest ih =>
      simp only [processPreceding] at hr
      cases hh : _get_hash_for_reaction ridmap p "output_hash" with
      | error err => rw [hh] at hr; cases hr
      | ok output_hash =>
          rw [hh] at hr
          simp only at hr
          cases ht : processPreceding ridmap mapping inRids k rest
              (_assign_uuids
                ((_extract_uid_and_reactome_values mapping output_hash).2)
                (_assign_uuids inRids cache c).2.1
                (_assign_uuids inRids cache c).2.2).2.1
              (_assign_uuids
                ((_extract_uid_and_reactome_values mapping output_hash).2)
                (_assign_uuids inRids cache c).2.1
                (_assign_uuids inRids cache c).2.2).2.2 with
          | error err => rw [ht] at hr; cases hr
          | ok tl =>
              rw [ht] at hr
              cases hr
              simp only [List.mem_append] at he
              rcases he with hmain | htail
              · exact add_pathway_connections_mem _ _ _ _ e hmain
              · exact ih _ _ _ ht htail

theorem processReaction_mem (ridmap : List RIMRow) (conns : List (PyStr × PyStr))
    (mapping : List MRow) (ruid : PyStr) (cache : List (Int × PyStr)) (c : Nat)
    (r : List PyEdge × List (Int × PyStr) × Nat)
    (hr : processReaction ridmap conns mapping ruid cache c = .ok r)
    (e : PyEdge) (he : e ∈ r.1) :
    e.pos_neg = "pos" ∧
    e.and_or =
      (_determine_edge_properties
        ((conns.filter (fun pc => pc.2 = ruid)).map (·.1)).length).1 ∧
    e.edge_type =
      (_determine_edge_properties
        ((conns.filter (fun pc => pc.2 = ruid)).map (·.1)).length).2 := by
  simp only [processReaction] at hr
  cases hh : _get_hash_for_reaction ridmap ruid "input_hash" with
  | error err => rw [hh] at hr; cases hr
  | ok input_hash =>
      rw [hh] at hr
      simp only at hr
      exact processPreceding_mem _ _ _ _ _ _ _ _ hr e he

theorem processReaction_no_preceding (ridmap : List RIMRow)
    (conns : List (PyStr × PyStr)) (mapping : List MRow) (ruid : PyStr)
    (cache : List (Int × PyStr)) (c : Nat)
    (r : List PyEdge × List (Int × PyStr) × Nat)
    (hr : processReaction ridmap conns mapping ruid cache c = .ok r)
    (hps : (conns.filter (fun pc => pc.2 = ruid)).map (·.1) = []) :
    r.1 = [] := by
  simp only [processReaction] at hr
  cases hh : _get_hash_for_reaction ridmap ruid "input_hash" with
  | error err => rw [hh] at hr; cases hr
  | ok input_hash =>
      rw [hh] at hr
      simp only [hps, processPreceding] at hr
      cases hr
      rfl

theorem extract_inputs_and_outputs_mem (ridmap : List RIMRow)
    (conns : List (PyStr × PyStr)) (mapping : List MRow) (ruids : List PyStr)
    (cache : List (Int × PyStr)) (c : Nat)
    (r : List PyEdge × List (Int × PyStr) × Nat)
    (hr : extract_inputs_and_outputs ridmap conns mapping ruids cache c = .ok r)
    (e : PyEdge) (he : e ∈ r.1) :
    e.pos_neg = "pos" ∧
    ((e.and_or = "and" ∧ e.edge_type = "input") ∨
     (e.and_or = "or" ∧ e.edge_type = "output")) := by
  induction ruids generalizing cache c r with
  | nil =>
      simp only [extract_inputs_and_outputs] at hr
      cases hr
      simp at he
  | cons ru rest ih =>
      simp only [extract_inputs_and_outputs] at hr
      cases hp : processReaction ridmap conns mapping ru cache c with
      | error err => rw [hp] at hr; cases hr
      | ok pr =>
          rw [hp] at hr
          simp only at hr
          cases ht : extract_inputs_and_outputs ridmap conns mapping rest pr.2.1 pr.2.2 with
          | error err => rw [ht] at hr; cases hr
          | ok tl =>
              rw [ht] at hr
              cases hr
              simp only [List.mem_append] at he
              rcases he with hmain | htail
              · obtain ⟨hp1, hp2, hp3⟩ := processReaction_mem _ _ _ _ _ _ _ hp e hmain
                refine ⟨hp1, ?_⟩
                by_cases hk : 1 < (conns.filter (fun pc => pc.2 = ru)).length
                · right
                  rw [hp2, hp3]
                  simp [_determine_edge_properties, List.length_map, hk]
                · left
                  rw [hp2, hp3]
                  simp [_determine_edge_properties, List.length_map, hk]
              · exact ih _ _ _ ht htail

theorem append_regulators_mem (cat neg pos : List CatRow) (data : List PyEdge)
    (cache : List (Int × PyStr)) (ao et : String) (e : PyEdge) :
    e ∈ append_regulators cat neg pos data cache ao et ↔
      e ∈ data ∨
      (∃ rr ∈ cat, e = { source_id := rr.uuid, target_id := rr.reaction_uuid,
                         pos_neg := "pos", and_or := ao, edge_type := "catalyst" }) ∨
      (∃ rr ∈ neg, e = { source_id := rr.uuid, target_id := rr.reaction_uuid,
                         pos_neg := "neg", and_or := ao, edge_type := "regulator" }) ∨
      (∃ rr ∈ pos, e = { source_id := rr.uuid, target_id := rr.reaction_uuid,
                         pos_neg := "pos", and_or := ao, edge_type := "regulator" }) := by
  simp only [append_regulators, List.mem_append, List.mem_map, or_assoc]
  constructor
  · rintro (h | ⟨rr, hrr, rfl⟩ | ⟨rr, hrr, rfl⟩ | ⟨rr, hrr, rfl⟩)
    · exact Or.inl h
    · exact Or.inr (Or.inl ⟨rr, hrr, rfl⟩)
    · exact Or.inr (Or.inr (Or.inl ⟨rr, hrr, rfl⟩))
    · exact Or.inr (Or.inr (Or.inr ⟨rr, hrr, rfl⟩))
  · rintro (h | ⟨rr, hrr, rfl⟩ | ⟨rr, hrr, rfl⟩ | ⟨rr, hrr, rfl⟩)
    · exact Or.inl h
    · exact Or.inr (Or.inl ⟨rr, hrr, rfl⟩)
    · exact Or.inr (Or.inr (Or.inl ⟨rr, hrr, rfl⟩))
    · exact Or.inr (Or.inr (Or.inr ⟨rr, hrr, rfl⟩))

theorem create_network_main_edges (genv : GraphEnv) (dum : PyTable MRow)
    (rc : PyTable RCRow) (bm : BestMatchesInput) (net : List PyEdge)
    (h : create_pathway_logic_network genv dum rc bm = .ok net)
    (e : PyEdge) (he : e ∈ net) (hm : mainEdge e) :
    e.pos_neg = "pos" ∧
    ((e.and_or = "and" ∧ e.edge_type = "input") ∨
     (e.and_or = "or" ∧ e.edge_type = "output")) := by
  simp only [create_pathway_logic_network] at h
  cases hv : validate_inputs dum rc bm with
  | error err => rw [hv] at h; cases h
  | ok u =>
      rw [hv] at h
      simp only [buildNetwork] at h
      cases bm with
      | listLike l => cases h
      | df t =>
          simp only at h
          cases hrm : create_reaction_id_map dum.rows t.rows 0 with
          | error err => rw [hrm] at h; cases h
          | ok rm =>
              obtain ⟨ridmap, c1⟩ := rm
              rw [hrm] at h
              simp only at h
              cases hcu : create_uid_reaction_connections ridmap t.rows dum.rows with
              | error err => rw [hcu] at h; cases h
              | ok conns =>
                  rw [hcu] at h
                  simp only at h
                  cases hex : extract_inputs_and_outputs ridmap conns dum.rows
                      (pySet (conns.foldl (fun acc pc => acc ++ [pc.1, pc.2]) []))
                      []
                      (get_positive_regulators_for_reaction genv ridmap
                        (get_negative_regulators_for_reaction genv ridmap
                          (get_catalysts_for_reaction genv ridmap c1).2).2).2 with
                  | error err => rw [hex] at h; cases h
                  | ok r =>
                      obtain ⟨me, cache, cend⟩ := r
                      rw [hex] at h
                      simp only at h
                      cases h
                      rw [append_regulators_mem] at he
                      rcases he with hmain | ⟨rr, _, rfl⟩ | ⟨rr, _, rfl⟩ | ⟨rr, _, rfl⟩
                      · exact extract_inputs_and_outputs_mem _ _ _ _ _ _ _ hex e hmain
                      · exact absurd rfl hm.1
                      · exact absurd rfl hm.2
                      · exact absurd rfl hm.2

/-- C5.  AND/OR edge rule of the Assembler.  Per following virtual
reaction with `k` preceding virtual reactions: `k = 0` emits no upstream
edge, `k = 1` emits only `and_or = "and"`, `edge_type = "input"` edges,
and `k > 1` emits only `and_or = "or"`, `edge_type = "output"` edges.
Consequently, in any network produced by `create_pathway_logic_network`,
every main-pathway edge is either an and/input or an or/output edge: every
"and" edge is an input edge, every "or" edge is an output edge, and no
main-pathway edge has `and_or` unset. -/
theorem C5_and_or_rule :
    (∀ (ridmap : List RIMRow) (conns : List (PyStr × PyStr)) (mapping : List MRow)
        (ruid : PyStr) (cache : List (Int × PyStr)) (c : Nat)
        (r : List PyEdge × List (Int × PyStr) × Nat),
      processReaction ridmap conns mapping ruid cache c = .ok r →
      (((conns.filter (fun pc => pc.2 = ruid)).map (·.1)).length = 0 → r.1 = []) ∧
      (((conns.filter (fun pc => pc.2 = ruid)).map (·.1)).length = 1 →
        ∀ e ∈ r.1, e.and_or = "and" ∧ e.edge_type = "input") ∧
      (((conns.filter (fun pc => pc.2 = ruid)).map (·.1)).length > 1 →
        ∀ e ∈ r.1, e.and_or = "or" ∧ e.edge_type = "output")) ∧
    (∀ (genv : GraphEnv) (dum : PyTable MRow) (rc : PyTable RCRow)
        (bm : BestMatchesInput) (net : List PyEdge),
      create_pathway_logic_network genv dum rc bm = .ok net →
      ∀ e ∈ net, mainEdge e →
        ((e.and_or = "and" ∧ e.edge_type = "input") ∨
         (e.and_or = "or" ∧ e.edge_type = "output")) ∧
        (e.and_or = "and" → e.edge_type = "input") ∧
        (e.and_or = "or" → e.edge_type = "output") ∧
        (e.and_or = "and" ∨ e.and_or = "or")) := by
  constructor
  · intro ridmap conns mapping ruid cache c r hr
    refine ⟨?_, ?_, ?_⟩
    · intro h0
      exact processReaction_no_preceding _ _ _ _ _ _ _ hr
        (List.length_eq_zero.mp h0)
    · intro h1 e he
      obtain ⟨_, h2, h3⟩ := processReaction_mem _ _ _ _ _ _ _ hr e he
      rw [h2, h3, h1]
      exact ⟨rfl, rfl⟩
    · intro hgt e he
      obtain ⟨_, h2, h3⟩ := processReaction_mem _ _ _ _ _ _ _ hr e he
      rw [h2, h3, _determine_edge_properties, if_pos hgt]
      exact ⟨rfl, rfl⟩
  · intro genv dum rc bm net h e he hm
    obtain ⟨_, hd⟩ := create_network_main_edges genv dum rc bm net h e he hm
    refine ⟨hd, ?_, ?_, ?_⟩
    · intro ha
      rcases hd with ⟨_, h2⟩ | ⟨h1, _⟩
      · exact h2
      · rw [ha] at h1; exact absurd h1 (by decide)
    · intro ha
      rcases hd with ⟨h1, _⟩ | ⟨_, h2⟩
      · rw [ha] at h1; exact absurd h1 (by decide)
      · exact h2
    · rcases hd with ⟨h1, _⟩ | ⟨h1, _⟩
      · exact Or.inl h1
      · exact Or.inr h1

/-- C5, witness: the rule applied to a concrete edge of the concrete
network generated from `dumA`/`rcA`/`bmA`. -/
theorem C5_witness :
    ((({ source_id := PyStr.u4 1, target_id := PyStr.u4 4, pos_neg := "pos",
         and_or := "and", edge_type := "input" } : PyEdge).and_or = "and" ∧
      ({ source_id := PyStr.u4 1, target_id := PyStr.u4 4, pos_neg := "pos",
         and_or := "and", edge_type := "input" } : PyEdge).edge_type = "input") ∨
     (({ source_id := PyStr.u4 1, target_id := PyStr.u4 4, pos_neg := "pos",
         and_or := "and", edge_type := "input" } : PyEdge).and_or = "or" ∧
      ({ source_id := PyStr.u4 1, target_id := PyStr.u4 4, pos_neg := "pos",
         and_or := "and", edge_type := "input" } : PyEdge).edge_type = "output")) ∧
    (({ source_id := PyStr.u4 1, target_id := PyStr.u4 4, pos_neg := "pos",
        and_or := "and", edge_type := "input" } : PyEdge).and_or = "and" →
      ({ source_id := PyStr.u4 1, target_id := PyStr.u4 4, pos_neg := "pos",
         and_or := "and", edge_type := "input" } : PyEdge).edge_type = "input") ∧
    (({ source_id := PyStr.u4 1, target_id := PyStr.u4 4, pos_neg := "pos",
        and_or := "and", edge_type := "input" } : PyEdge).and_or = "or" →
      ({ source_id := PyStr.u4 1, target_id := PyStr.u4 4, pos_neg := "pos",
         and_or := "and", edge_type := "input" } : PyEdge).edge_type = "output") ∧
    (({ source_id := PyStr.u4 1, target_id := PyStr.u4 4, pos_neg := "pos",
        and_or := "and", edge_type := "input" } : PyEdge).and_or = "and" ∨
     ({ source_id := PyStr.u4 1, target_id := PyStr.u4 4, pos_neg := "pos",
        and_or := "and", edge_type := "input" } : PyEdge).and_or = "or") :=
  C5_and_or_rule.2 genv0 dumA rcA bmA
    [{ source_id := PyStr.u4 1, target_id := PyStr.u4 1, pos_neg := "pos",
       and_or := "and", edge_type := "input" },
     { source_id := PyStr.u4 1, target_id := PyStr.u4 4, pos_neg := "pos",
       and_or := "and", edge_type := "input" },
     { source_id := PyStr.u4 2, target_id := PyStr.u4 1, pos_neg := "pos",
       and_or := "and", edge_type := "input" },
     { source_id := PyStr.u4 2, target_id := PyStr.u4 4, pos_neg := "pos",
       and_or := "and", edge_type := "input" }]
    (by decide)
    { source_id := PyStr.u4 1, target_id := PyStr.u4 4, pos_neg := "pos",
      and_or := "and", edge_type := "input" }
    (by decide) (by decide)

theorem mintN_mem (c k : Nat) (u : PyStr) (hu : u ∈ (mintN c k).1) :
    ∃ j, u = PyStr.u4 j ∧ c ≤ j ∧ j < c + k := by
  simp only [mintN, List.mem_map, List.mem_range] at hu
  obtain ⟨i, hi, rfl⟩ := hu
  exact ⟨c + i, rfl, Nat.le_add_right c i, by omega⟩

theorem create_reaction_id_map_range (mapping : List MRow) (bm : List BMRow)
    (c : Nat) (rows : List RIMRow) (c' : Nat)
    (h : create_reaction_id_map mapping bm c = .ok (rows, c')) :
    c ≤ c' ∧ ∀ r ∈ rows, ∃ k, r.uid = PyStr.u4 k ∧ c ≤ k ∧ k < c' := by
  induction bm generalizing c rows c' with
  | nil =>
      simp only [create_reaction_id_map] at h
      cases h
      exact ⟨Nat.le_refl c, by simp⟩
  | cons m rest ih =>
      simp only [create_reaction_id_map] at h
      cases hg : _get_reactome_id_from_hash mapping m.incomming with
      | error err => rw [hg] at h; cases h
      | ok rid =>
          rw [hg] at h
          simp only at h
          cases ht : create_reaction_id_map mapping rest (c + 1) with
          | error err => rw [ht] at h; cases h
          | ok tl =>
              obtain ⟨rows', c''⟩ := tl
              rw [ht] at h
              simp only at h
              cases h
              obtain ⟨hle, hmem⟩ := ih _ _ _ ht
              refine ⟨by omega, ?_⟩
              intro r hr
              rcases List.mem_cons.mp hr with rfl | hr'
              · exact ⟨c, rfl, Nat.le_refl c, by omega⟩
              · obtain ⟨k, hk, h1, h2⟩ := hmem r hr'
                exact ⟨k, hk, by omega, h2⟩

theorem get_catalysts_range (genv : GraphEnv) (rm : List RIMRow) (c : Nat) :
    c ≤ (get_catalysts_for_reaction genv rm c).2 ∧
    ∀ r ∈ (get_catalysts_for_reaction genv rm c).1, ∃ k, r.uuid = PyStr.u4 k ∧
      c ≤ k ∧ k < (get_catalysts_for_reaction genv rm c).2 := by
  induction rm generalizing c with
  | nil => simp [get_catalysts_for_reaction]
  | cons r rest ih =>
      simp only [get_catalysts_for_reaction]
      obtain ⟨hle, hmem⟩ := ih (mintN c (genv.catalysts r.reactome_id).length).2
      refine ⟨by simp only [mintN] at hle ⊢; omega, ?_⟩
      intro rr hrr
      rcases List.mem_append.mp hrr with hfst | hrest
      · simp only [List.mem_map] at hfst
        obtain ⟨u, hu, rfl⟩ := hfst
        obtain ⟨j, hj, h1, h2⟩ := mintN_mem _ _ _ hu
        refine ⟨j, hj, h1, ?_⟩
        simp only [mintN] at hle h2 ⊢
        omega
      · obtain ⟨k, hk, h1, h2⟩ := hmem rr hrest
        refine ⟨k, hk, ?_, h2⟩
        simp only [mintN] at h1
        omega

theorem get_negative_regulators_range (genv : GraphEnv) (rm : List RIMRow) (c : Nat) :
    c ≤ (get_negative_regulators_for_reaction genv rm c).2 ∧
    ∀ r ∈ (get_negative_regulators_for_reaction genv rm c).1, ∃ k,
      r.uuid = PyStr.u4 k ∧ c ≤ k ∧
      k < (get_negative_regulators_for_reaction genv rm c).2 := by
  induction rm generalizing c with
  | nil => simp [get_negative_regulators_for_reaction]
  | cons r rest ih =>
      simp only [get_negative_regulators_for_reaction]
      obtain ⟨hle, hmem⟩ := ih (mintN c (genv.negRegCount r.reactome_id)).2
      refine ⟨by simp only [mintN] at hle ⊢; omega, ?_⟩
      intro rr hrr
      rcases List.mem_append.mp hrr with hfst | hrest
      · simp only [List.mem_map] at hfst
        obtain ⟨u, hu, rfl⟩ := hfst
        obtain ⟨j, hj, h1, h2⟩ := mintN_mem _ _ _ hu
        refine ⟨j, hj, h1, ?_⟩
        simp only [mintN] at hle h2 ⊢
        omega
      · obtain ⟨k, hk, h1, h2⟩ := hmem rr hrest
        refine ⟨k, hk, ?_, h2⟩
        simp only [mintN] at h1
        omega

theorem get_positive_regulators_range (genv : GraphEnv) (rm : List RIMRow) (c : Nat) :
    c ≤ (get_positive_regulators_for_reaction genv rm c).2 ∧
    ∀ r ∈ (get_positive_regulators_for_reaction genv rm c).1, ∃ k,
      r.uuid = PyStr.u4 k ∧ c ≤ k ∧
      k < (get_positive_regulators_for_reaction genv rm c).2 := by
  induction rm generalizing c with
  | nil => simp [get_positive_regulators_for_reaction]
  | cons r rest ih =>
      simp only [get_positive_regulators_for_reaction]
      obtain ⟨hle, hmem⟩ := ih (mintN c (genv.posRegCount r.reactome_id)).2
      refine ⟨by simp only [mintN] at hle ⊢; omega, ?_⟩
      intro rr hrr
      rcases List.mem_append.mp hrr with hfst | hrest
      · simp only [List.mem_map] at hfst
        obtain ⟨u, hu, rfl⟩ := hfst
        obtain ⟨j, hj, h1, h2⟩ := mintN_mem _ _ _ hu
        refine ⟨j, hj, h1, ?_⟩
        simp only [mintN] at hle h2 ⊢
        omega
      · obtain ⟨k, hk, h1, h2⟩ := hmem rr hrest
        refine ⟨k, hk, ?_, h2⟩
        simp only [mintN] at h1
        omega

theorem alookup_mem {κ α : Type} [DecidableEq κ] (m : List (κ × α)) (k : κ) (v : α)
    (h : alookup m k = some v) : (k, v) ∈ m := by
  induction m with
  | nil => simp [alookup] at h
  | cons kv rest ih =>
      simp only [alookup] at h
      by_cases he : k = kv.1
      · rw [if_pos he] at h
        cases h
        rw [he]
        exact List.mem_cons_self _ _
      · rw [if_neg he] at h
        exact List.mem_cons.mpr (Or.inr (ih h))

theorem assign_uuids_spec (rids : List Int) (cache : List (Int × PyStr))
    (c lo : Nat) (hc : lo ≤ c)
    (hcache : ∀ kv ∈ cache, ∃ k, kv.2 = PyStr.u4 k ∧ lo ≤ k ∧ k < c) :
    (_assign_uuids rids cache c).2.2 = c + rids.length ∧
    (∀ kv ∈ (_assign_uuids rids cache c).2.1, ∃ k, kv.2 = PyStr.u4 k ∧
      lo ≤ k ∧ k < (_assign_uuids rids cache c).2.2) ∧
    (∀ u ∈ (_assign_uuids rids cache c).1, ∃ k, u = PyStr.u4 k ∧
      lo ≤ k ∧ k < (_assign_uuids rids cache c).2.2) := by
  induction rids generalizing cache c with
  | nil => simpa [_assign_uuids] using hcache
  | cons rid rest ih =>
      simp only [_assign_uuids]
      have hcache' : ∀ kv ∈ (if (alookup cache rid).isSome then cache
          else cache ++ [(rid, PyStr.u4 c)]), ∃ k, kv.2 = PyStr.u4 k ∧
          lo ≤ k ∧ k < c + 1 := by
        intro kv hkv
        by_cases hh : (alookup cache rid).isSome
        · rw [if_pos hh] at hkv
          obtain ⟨k, h1, h2, h3⟩ := hcache kv hkv
          exact ⟨k, h1, h2, by omega⟩
        · rw [if_neg hh] at hkv
          rcases List.mem_append.mp hkv with hold | hnew
          · obtain ⟨k, h1, h2, h3⟩ := hcache kv hold
            exact ⟨k, h1, h2, by omega⟩
          · simp only [List.mem_singleton] at hnew
            subst hnew
            exact ⟨c, rfl, hc, by omega⟩
      obtain ⟨hlen, hcc, hus⟩ := ih _ (c + 1) (by omega) hcache'
      have hbig : c + 1 ≤ (_assign_uuids rest (if (alookup cache rid).isSome then cache
          else cache ++ [(rid, PyStr.u4 c)]) (c + 1)).2.2 := by
        rw [hlen]; omega
      refine ⟨by simp only [hlen, List.length_cons]; omega, hcc, ?_⟩
      intro u hu
      rcases List.mem_cons.mp hu with rfl | hrest
      · cases hh : alookup cache rid with
        | none =>
            rw [hh] at hbig
            refine ⟨c, by simp, hc, by omega⟩
        | some v =>
            rw [hh] at hbig
            obtain ⟨k, h1, h2, h3⟩ := hcache (rid, v) (alookup_mem cache rid v hh)
            refine ⟨k, by simpa using h1, h2, by omega⟩
      · obtain ⟨k, h1, h2, h3⟩ := hus u hrest
        exact ⟨k, h1, h2, h3⟩

theorem add_pathway_connections_endpoints (iu ou : List PyStr) (ao et : String)
    (e : PyEdge) (he : e ∈ _add_pathway_connections iu ou ao et) :
    e.source_id ∈ iu ∧ e.target_id ∈ ou := by
  induction iu with
  | nil => simp [_add_pathway_connections] at he
  | cons i rest ih =>
      simp only [_add_pathway_connections, List.foldr_cons, List.mem_append,
        List.mem_map] at he
      rcases he with ⟨ou', hou, rfl⟩ | hrest
      · exact ⟨List.mem_cons_self _ _, hou⟩
      · obtain ⟨h1, h2⟩ := ih hrest
        exact ⟨List.mem_cons.mpr (Or.inr h1), h2⟩

theorem processPreceding_spec (ridmap : List RIMRow) (mapping : List MRow)
    (inRids : List Int) (k : Nat) (ps : List PyStr) :
    ∀ (cache : List (Int × PyStr)) (c lo : Nat)
      (r : List PyEdge × List (Int × PyStr) × Nat), lo ≤ c →
    (∀ kv ∈ cache, ∃ j, kv.2 = PyStr.u4 j ∧ lo ≤ j ∧ j < c) →
    processPreceding ridmap mapping inRids k ps cache c = .ok r →
    c ≤ r.2.2 ∧
    (∀ kv ∈ r.2.1, ∃ j, kv.2 = PyStr.u4 j ∧ lo ≤ j ∧ j < r.2.2) ∧
    (∀ e ∈ r.1, (∃ j, e.source_id = PyStr.u4 j ∧ lo ≤ j ∧ j < r.2.2) ∧
                (∃ j, e.target_id = PyStr.u4 j ∧ lo ≤ j ∧ j < r.2.2)) := by
  induction ps with
  | nil =>
      intro cache c lo r hlo hcache hr
      simp only [processPreceding] at hr
      cases hr
      exact ⟨Nat.le_refl _, hcache, by simp⟩
  | cons p rest ih =>
      intro cache c lo r hlo hcache hr
      simp only [processPreceding] at hr
      cases hh : _get_hash_for_reaction ridmap p "output_hash" with
      | error err => rw [hh] at hr; cases hr
      | ok output_hash =>
          rw [hh] at hr
          simp only at hr
          obtain ⟨hlen1, hcc1, hus1⟩ :=
            assign_uuids_spec inRids cache c lo hlo hcache
          have hlo1 : lo ≤ (_assign_uuids inRids cache c).2.2 := by omega
          obtain ⟨hlen2, hcc2, hus2⟩ :=
            assign_uuids_spec ((_extract_uid_and_reactome_values mapping output_hash).2)
              (_assign_uuids inRids cache c).2.1 (_assign_uuids inRids cache c).2.2
              lo hlo1 hcc1
          cases ht : processPreceding ridmap mapping inRids k rest
              (_assign_uuids
                ((_extract_uid_and_reactome_values mapping output_hash).2)
                (_assign_uuids inRids cache c).2.1
                (_assign_uuids inRids cache c).2.2).2.1
              (_assign_uuids
                ((_extract_uid_and_reactome_values mapping output_hash).2)
                (_assign_uuids inRids cache c).2.1
                (_assign_uuids inRids cache c).2.2).2.2 with
          | error err => rw [ht] at hr; cases hr
          | ok tl =>
              rw [ht] at hr
              cases hr
              dsimp only
              have hlo2 : lo ≤ (_assign_uuids
                  ((_extract_uid_and_reactome_values mapping output_hash).2)
                  (_assign_uuids inRids cache c).2.1
                  (_assign_uuids inRids cache c).2.2).2.2 := by omega
              obtain ⟨hle3, hcc3, hes3⟩ := ih _ _ lo tl hlo2 hcc2 ht
              have hc1 : c ≤ (_assign_uuids inRids cache c).2.2 := by
                rw [hlen1]; exact Nat.le_add_right _ _
              have hc2 : (_assign_uuids inRids cache c).2.2 ≤ (_assign_uuids
                  ((_extract_uid_and_reactome_values mapping output_hash).2)
                  (_assign_uuids inRids cache c).2.1
                  (_assign_uuids inRids cache c).2.2).2.2 := by
                rw [hlen2]; exact Nat.le_add_right _ _
              refine ⟨le_trans hc1 (le_trans hc2 hle3), hcc3, ?_⟩
              intro e he
              rcases List.mem_append.mp he with hmain | htail
              · obtain ⟨hsrc, htgt⟩ :=
                  add_pathway_connections_endpoints _ _ _ _ e hmain
                obtain ⟨j1, hj1, ha1, hb1⟩ := hus1 _ hsrc
                obtain ⟨j2, hj2, ha2, hb2⟩ := hus2 _ htgt
                exact ⟨⟨j1, hj1, ha1, lt_of_lt_of_le hb1 (le_trans hc2 hle3)⟩,
                       ⟨j2, hj2, ha2, lt_of_lt_of_le hb2 hle3⟩⟩
              · exact hes3 e htail

theorem processReaction_spec (ridmap : List RIMRow) (conns : List (PyStr × PyStr))
    (mapping : List MRow) (ruid : PyStr) (cache : List (Int × PyStr))
    (c lo : Nat) (r : List PyEdge × List (Int × PyStr) × Nat) (hlo : lo ≤ c)
    (hcache : ∀ kv ∈ cache, ∃ j, kv.2 = PyStr.u4 j ∧ lo ≤ j ∧ j < c)
    (hr : processReaction ridmap conns mapping ruid cache c = .ok r) :
    c ≤ r.2.2 ∧
    (∀ kv ∈ r.2.1, ∃ j, kv.2 = PyStr.u4 j ∧ lo ≤ j ∧ j < r.2.2) ∧
    (∀ e ∈ r.1, (∃ j, e.source_id = PyStr.u4 j ∧ lo ≤ j ∧ j < r.2.2) ∧
                (∃ j, e.target_id = PyStr.u4 j ∧ lo ≤ j ∧ j < r.2.2)) := by
  simp only [processReaction] at hr
  cases hh : _get_hash_for_reaction ridmap ruid "input_hash" with
  | error err => rw [hh] at hr; cases hr
  | ok input_hash =>
      rw [hh] at hr
      simp only at hr
      exact processPreceding_spec _ _ _ _ _ _ _ _ _ hlo hcache hr

theorem extract_inputs_and_outputs_spec (ridmap : List RIMRow)
    (conns : List (PyStr × PyStr)) (mapping : List MRow) (ruids : List PyStr) :
    ∀ (cache : List (Int × PyStr)) (c lo : Nat)
      (r : List PyEdge × List (Int × PyStr) × Nat), lo ≤ c →
    (∀ kv ∈ cache, ∃ j, kv.2 = PyStr.u4 j ∧ lo ≤ j ∧ j < c) →
    extract_inputs_and_outputs ridmap conns mapping ruids cache c = .ok r →
    c ≤ r.2.2 ∧
    (∀ e ∈ r.1, (∃ j, e.source_id = PyStr.u4 j ∧ lo ≤ j ∧ j < r.2.2) ∧
                (∃ j, e.target_id = PyStr.u4 j ∧ lo ≤ j ∧ j < r.2.2)) := by
  induction ruids with
  | nil =>
      intro cache c lo r hlo hcache hr
      simp only [extract_inputs_and_outputs] at hr
      cases hr
      exact ⟨Nat.le_refl _, by simp⟩
  | cons ru rest ih =>
      intro cache c lo r hlo hcache hr
      simp only [extract_inputs_and_outputs] at hr
      cases hp : processReaction ridmap conns mapping ru cache c with
      | error err => rw [hp] at hr; cases hr
      | ok pr =>
          rw [hp] at hr
          simp only at hr
          cases ht : extract_inputs_and_outputs ridmap conns mapping rest pr.2.1 pr.2.2 with
          | error err => rw [ht] at hr; cases hr
          | ok tl =>
              rw [ht] at hr
              cases hr
              dsimp only
              obtain ⟨hle1, hcc1, hes1⟩ :=
                processReaction_spec _ _ _ _ _ _ lo pr hlo hcache hp
              obtain ⟨hle2, hes2⟩ := ih pr.2.1 pr.2.2 lo tl (le_trans hlo hle1) hcc1 ht
              refine ⟨le_trans hle1 hle2, ?_⟩
              intro e he
              rcases List.mem_append.mp he with hmain | htail
              · obtain ⟨⟨j1, hj1, ha1, hb1⟩, ⟨j2, hj2, ha2, hb2⟩⟩ := hes1 e hmain
                exact ⟨⟨j1, hj1, ha1, lt_of_lt_of_le hb1 hle2⟩,
                       ⟨j2, hj2, ha2, lt_of_lt_of_le hb2 hle2⟩⟩
              · exact hes2 e htail

/-- C10.  Catalyst and regulator edges: `append_regulators` never consults
the reactome-id-to-UUID memoization cache (its output is independent of
that argument), every such edge's `and_or` is the empty string, its
`pos_neg`/`edge_type` pair is ("pos","catalyst"), ("neg","regulator") or
("pos","regulator") according to the record's kind, and its `source_id` is
a UUID minted freshly per fetched record — in particular it never equals
any endpoint UUID of a main-pathway edge (those are minted later from the
memoization cache, from a strictly larger counter position). -/
theorem C10_regulator_edges :
    (∀ (cat neg pos : List CatRow) (data : List PyEdge)
        (cache1 cache2 : List (Int × PyStr)) (ao et : String),
      append_regulators cat neg pos data cache1 ao et =
        append_regulators cat neg pos data cache2 ao et) ∧
    (∀ (genv : GraphEnv) (dum : PyTable MRow) (rc : PyTable RCRow)
        (bm : BestMatchesInput) (net : List PyEdge),
      create_pathway_logic_network genv dum rc bm = .ok net →
      ∀ e ∈ net, ¬ mainEdge e →
        e.and_or = "" ∧
        ((e.pos_neg = "pos" ∧ e.edge_type = "catalyst") ∨
         (e.pos_neg = "neg" ∧ e.edge_type = "regulator") ∨
         (e.pos_neg = "pos" ∧ e.edge_type = "regulator")) ∧
        (∀ e2 ∈ net, mainEdge e2 →
          e.source_id ≠ e2.source_id ∧ e.source_id ≠ e2.target_id)) := by
  constructor
  · intro cat neg pos data cache1 cache2 ao et
    rfl
  · intro genv dum rc bm net h e he hnm
    simp only [create_pathway_logic_network] at h
    cases hv : validate_inputs dum rc bm with
    | error err => rw [hv] at h; cases h
    | ok u =>
        rw [hv] at h
        simp only [buildNetwork] at h
        cases bm with
        | listLike l => cases h
        | df t =>
            simp only at h
            cases hrm : create_reaction_id_map dum.rows t.rows 0 with
            | error err => rw [hrm] at h; cases h
            | ok rm =>
                obtain ⟨ridmap, c1⟩ := rm
                rw [hrm] at h
                simp only at h
                cases hcu : create_uid_reaction_connections ridmap t.rows dum.rows with
                | error err => rw [hcu] at h; cases h
                | ok conns =>
                    rw [hcu] at h
                    simp only at h
                    cases hex : extract_inputs_and_outputs ridmap conns dum.rows
                        (pySet (conns.foldl (fun acc pc => acc ++ [pc.1, pc.2]) []))
                        []
                        (get_positive_regulators_for_reaction genv ridmap
                          (get_negative_regulators_for_reaction genv ridmap
                            (get_catalysts_for_reaction genv ridmap c1).2).2).2 with
                    | error err => rw [hex] at h; cases h
                    | ok r =>
                        obtain ⟨me, cache, cend⟩ := r
                        rw [hex] at h
                        simp only at h
                        cases h
                        obtain ⟨hcatle, hcat⟩ := get_catalysts_range genv ridmap c1
                        obtain ⟨hnegle, hneg⟩ := get_negative_regulators_range genv
                          ridmap (get_catalysts_for_reaction genv ridmap c1).2
                        obtain ⟨hposle, hpos⟩ := get_positive_regulators_range genv
                          ridmap (get_negative_regulators_for_reaction genv ridmap
                            (get_catalysts_for_reaction genv ridmap c1).2).2
                        obtain ⟨hexle, hexmem⟩ :=
                          extract_inputs_and_outputs_spec ridmap conns dum.rows
                            (pySet (conns.foldl (fun acc pc => acc ++ [pc.1, pc.2]) []))
                            []
                            (get_positive_regulators_for_reaction genv ridmap
                              (get_negative_regulators_for_reaction genv ridmap
                                (get_catalysts_for_reaction genv ridmap c1).2).2).2
                            (get_positive_regulators_for_reaction genv ridmap
                              (get_negative_regulators_for_reaction genv ridmap
                                (get_catalysts_for_reaction genv ridmap c1).2).2).2
                            (me, cache, cend) (Nat.le_refl _) (by simp) hex
                        have hmainOf : ∀ e2 ∈ me, mainEdge e2 := by
                          intro e2 he2
                          obtain ⟨_, hd⟩ :=
                            extract_inputs_and_outputs_mem _ _ _ _ _ _ _ hex e2 he2
                          rcases hd with ⟨_, h2⟩ | ⟨_, h2⟩ <;> rw [mainEdge, h2] <;>
                            exact ⟨by decide, by decide⟩
                        have hmainBound : ∀ e2 ∈ me, ∀ k,
                            (e2.source_id = PyStr.u4 k ∨ e2.target_id = PyStr.u4 k) →
                            (get_positive_regulators_for_reaction genv ridmap
                              (get_negative_regulators_for_reaction genv ridmap
                                (get_catalysts_for_reaction genv ridmap c1).2).2).2 ≤ k := by
                          intro e2 he2 k hk
                          obtain ⟨⟨j1, hj1, ha1, _⟩, ⟨j2, hj2, ha2, _⟩⟩ := hexmem e2 he2
                          rcases hk with hk | hk
                          · rw [hk] at hj1
                            cases hj1
                            exact ha1
                          · rw [hk] at hj2
                            cases hj2
                            exact ha2
                        rw [append_regulators_mem] at he
                        have disj : ∀ (k : Nat), e.source_id = PyStr.u4 k →
                            k < (get_positive_regulators_for_reaction genv ridmap
                              (get_negative_regulators_for_reaction genv ridmap
                                (get_catalysts_for_reaction genv ridmap c1).2).2).2 →
                            ∀ e2 ∈ append_regulators
                              (get_catalysts_for_reaction genv ridmap c1).1
                              (get_negative_regulators_for_reaction genv ridmap
                                (get_catalysts_for_reaction genv ridmap c1).2).1
                              (get_positive_regulators_for_reaction genv ridmap
                                (get_negative_regulators_for_reaction genv ridmap
                                  (get_catalysts_for_reaction genv ridmap c1).2).2).1
                              me cache "" "", mainEdge e2 →
                            e.source_id ≠ e2.source_id ∧ e.source_id ≠ e2.target_id := by
                          intro k hk hklt e2 he2 hm2
                          rw [append_regulators_mem] at he2
                          have he2me : e2 ∈ me := by
                            rcases he2 with h2 | ⟨rr, _, rfl⟩ | ⟨rr, _, rfl⟩ | ⟨rr, _, rfl⟩
                            · exact h2
                            · exact absurd rfl hm2.1
                            · exact absurd rfl hm2.2
                            · exact absurd rfl hm2.2
                          constructor
                          · intro heq
                            obtain ⟨⟨j1, hj1, ha1, _⟩, _⟩ := hexmem e2 he2me
                            rw [hk, hj1] at heq
                            cases heq
                            omega
                          · intro heq
                            obtain ⟨_, ⟨j2, hj2, ha2, _⟩⟩ := hexmem e2 he2me
                            rw [hk, hj2] at heq
                            cases heq
                            omega
                        rcases he with hmain | ⟨rr, hrr, rfl⟩ | ⟨rr, hrr, rfl⟩ | ⟨rr, hrr, rfl⟩
                        · exact absurd (hmainOf e hmain) hnm
                        · obtain ⟨k, hk, hka, hkb⟩ := hcat rr hrr
                          exact ⟨rfl, Or.inl ⟨rfl, rfl⟩, disj k hk (by omega)⟩
                        · obtain ⟨k, hk, hka, hkb⟩ := hneg rr hrr
                          exact ⟨rfl, Or.inr (Or.inl ⟨rfl, rfl⟩), disj k hk (by omega)⟩
                        · obtain ⟨k, hk, hka, hkb⟩ := hpos rr hrr
                          exact ⟨rfl, Or.inr (Or.inr ⟨rfl, rfl⟩), disj k hk (by omega)⟩

/-- C10, witness: on the concrete regulator example, the catalyst edge's
`and_or` is empty and its freshly minted source UUID differs from both
endpoints of a main-pathway edge. -/
theorem C10_witness :
    ({ source_id := PyStr.u4 1, target_id := PyStr.u4 0, pos_neg := "pos",
       and_or := "", edge_type := "catalyst" } : PyEdge).and_or = "" ∧
    ({ source_id := PyStr.u4 1, target_id := PyStr.u4 0, pos_neg := "pos",
       and_or := "", edge_type := "catalyst" } : PyEdge).source_id ≠
      ({ source_id := PyStr.u4 3, target_id := PyStr.u4 6, pos_neg := "pos",
         and_or := "and", edge_type := "input" } : PyEdge).source_id ∧
    ({ source_id := PyStr.u4 1, target_id := PyStr.u4 0, pos_neg := "pos",
       and_or := "", edge_type := "catalyst" } : PyEdge).source_id ≠
      ({ source_id := PyStr.u4 3, target_id := PyStr.u4 6, pos_neg := "pos",
         and_or := "and", edge_type := "input" } : PyEdge).target_id := by
  have H := C10_regulator_edges.2 genvR dumA rcA bmA
    [{ source_id := PyStr.u4 3, target_id := PyStr.u4 3, pos_neg := "pos",
       and_or := "and", edge_type := "input" },
     { source_id := PyStr.u4 3, target_id := PyStr.u4 6, pos_neg := "pos",
       and_or := "and", edge_type := "input" },
     { source_id := PyStr.u4 4, target_id := PyStr.u4 3, pos_neg := "pos",
       and_or := "and", edge_type := "input" },
     { source_id := PyStr.u4 4, target_id := PyStr.u4 6, pos_neg := "pos",
       and_or := "and", edge_type := "input" },
     { source_id := PyStr.u4 1, target_id := PyStr.u4 0, pos_neg := "pos",
       and_or := "", edge_type := "catalyst" },
     { source_id := PyStr.u4 2, target_id := PyStr.u4 0, pos_neg := "neg",
       and_or := "", edge_type := "regulator" }]
    (by decide)
    { source_id := PyStr.u4 1, target_id := PyStr.u4 0, pos_neg := "pos",
      and_or := "", edge_type := "catalyst" }
    (by decide) (by decide)
  have H2 := H.2.2
    { source_id := PyStr.u4 3, target_id := PyStr.u4 6, pos_neg := "pos",
      and_or := "and", edge_type := "input" }
    (by decide) (by decide)
  exact ⟨H.1, H2.1, H2.2⟩

theorem foldl_argmin_prop {α : Type} (cost : α → Int) (l : List α) (a0 : α)
    (P : α → Prop) (h0 : P a0) (hl : ∀ x ∈ l, P x) :
    P (l.foldl (fun best f => if cost f < cost best then f else best) a0) := by
  induction l generalizing a0 with
  | nil => exact h0
  | cons x rest ih =>
      simp only [List.foldl_cons]
      by_cases hx : cost x < cost a0
      · rw [if_pos hx]
        exact ih x (hl x (List.mem_cons_self _ _))
          (fun y hy => hl y (List.mem_cons.mpr (Or.inr hy)))
      · rw [if_neg hx]
        exact ih a0 h0 (fun y hy => hl y (List.mem_cons.mpr (Or.inr hy)))

theorem foldl_argmin_le {α : Type} (cost : α → Int) (l : List α) (a0 : α) :
    cost (l.foldl (fun best f => if cost f < cost best then f else best) a0) ≤
      cost a0 ∧
    ∀ x ∈ l, cost (l.foldl (fun best f => if cost f < cost best then f else best) a0) ≤
      cost x := by
  induction l generalizing a0 with
  | nil => exact ⟨le_refl _, by simp⟩
  | cons x rest ih =>
      simp only [List.foldl_cons]
      by_cases hx : cost x < cost a0
      · rw [if_pos hx]
        obtain ⟨h1, h2⟩ := ih x
        refine ⟨le_trans h1 (le_of_lt hx), ?_⟩
        intro y hy
        rcases List.mem_cons.mp hy with rfl | hy'
        · exact h1
        · exact h2 y hy'
      · rw [if_neg hx]
        obtain ⟨h1, h2⟩ := ih a0
        refine ⟨h1, ?_⟩
        intro y hy
        rcases List.mem_cons.mp hy with rfl | hy'
        · exact le_trans h1 (not_lt.mp hx)
        · exact h2 y hy'

theorem mem_listProd_cons {β : Type} (l : List β) (ls : List (List β))
    (v : List β) :
    v ∈ listProd (l :: ls) ↔ ∃ x ∈ l, ∃ r ∈ listProd ls, v = x :: r := by
  show v ∈ l.foldr (fun x acc => ((listProd ls).map (fun r => x :: r)) ++ acc) [] ↔ _
  induction l with
  | nil => simp
  | cons x rest ih =>
      simp only [List.foldr_cons, List.mem_append, List.mem_map, ih]
      constructor
      · rintro (⟨r, hr, rfl⟩ | ⟨y, hy, r, hr, rfl⟩)
        · exact ⟨x, List.mem_cons_self _ _, r, hr, rfl⟩
        · exact ⟨y, List.mem_cons.mpr (Or.inr hy), r, hr, rfl⟩
      · rintro ⟨y, hy, r, hr, rfl⟩
        rcases List.mem_cons.mp hy with rfl | hy'
        · exact Or.inl ⟨r, hr, rfl⟩
        · exact Or.inr ⟨y, hy', r, hr, rfl⟩

theorem mem_listProd_replicate {β : Type} (n : Nat) (l : List β) (w : List β)
    (hw : w.length = n) (hmem : ∀ x ∈ w, x ∈ l) :
    w ∈ listProd (List.replicate n l) := by
  induction n generalizing w with
  | zero =>
      rw [List.length_eq_zero] at hw
      subst hw
      simp [listProd]
  | succ k ih =>
      cases w with
      | nil => simp at hw
      | cons x rest =>
          rw [List.replicate_succ, mem_listProd_cons]
          exact ⟨x, hmem x (List.mem_cons_self _ _),
                 rest, ih rest (by simpa using hw)
                   (fun y hy => hmem y (List.mem_cons.mpr (Or.inr hy))), rfl⟩

theorem vecToFun_map (d : Nat) (g : Fin d → Fin d) :
    vecToFun d ((List.finRange d).map g) = g := by
  funext i
  simp only [vecToFun]
  rw [List.getD_eq_getElem _ _ (by simp [i.isLt])]
  simp

theorem mem_allAssignments (d : Nat) (g : Fin d → Fin d)
    (hg : Function.Injective g) : g ∈ allAssignments d := by
  simp only [allAssignments, List.mem_filter, List.mem_map]
  refine ⟨⟨(List.finRange d).map g, ?_, vecToFun_map d g⟩, ?_⟩
  · exact mem_listProd_replicate d _ _ (by simp) (by simp)
  · simpa using hg

theorem allAssignments_injective (d : Nat) (f : Fin d → Fin d)
    (hf : f ∈ allAssignments d) : Function.Injective f := by
  simp only [allAssignments, List.mem_filter] at hf
  simpa using hf.2

theorem lsa_injective (d : Nat) (cost : Fin d → Fin d → Int) :
    Function.Injective (linear_sum_assignment d cost) := by
  exact foldl_argmin_prop (totalCost d cost) (allAssignments d) id
    Function.Injective Function.injective_id (allAssignments_injective d)

theorem lsa_optimal (d : Nat) (cost : Fin d → Fin d → Int) (g : Fin d → Fin d)
    (hg : Function.Injective g) :
    totalCost d cost (linear_sum_assignment d cost) ≤ totalCost d cost g :=
  (foldl_argmin_le (totalCost d cost) (allAssignments d) id).2 g
    (mem_allAssignments d g hg)

theorem length_filter_finRange (d : Nat) (p : Fin d → Bool) :
    ((List.finRange d).filter p).length =
      (Finset.univ.filter (fun i => p i = true)).card := by
  have h1 : (Finset.univ.filter (fun i => p i = true)).val =
      Multiset.filter (fun i => p i = true) (Finset.univ : Finset (Fin d)).val :=
    Finset.filter_val _ _
  have h2 : (Finset.univ : Finset (Fin d)).val =
      (List.finRange d : Multiset (Fin d)) := rfl
  rw [Finset.card, h1, h2, Multiset.filter_coe, Multiset.coe_card]
  congr 1
  apply List.filter_congr
  intro x _
  simp

theorem card_filter_val_lt (d n : Nat) :
    (Finset.univ.filter (fun i : Fin d => i.val < n)).card = min n d := by
  have h : ∀ m ∈ Finset.range (min n d), m < d := by
    intro m hm; simp only [Finset.mem_range, Nat.lt_min] at hm; omega
  have he : (Finset.univ.filter (fun i : Fin d => i.val < n)) =
      (Finset.range (min n d)).attachFin h := by
    ext i
    simp [Finset.mem_attachFin, Finset.mem_range, Nat.lt_min, i.isLt]
  rw [he, Finset.card_attachFin, Finset.card_range]

theorem card_filter_comp_bij (d : Nat) (σ : Fin d → Fin d)
    (hσ : Function.Bijective σ) (p : Fin d → Prop) [DecidablePred p] :
    (Finset.univ.filter (fun i => p (σ i))).card =
      (Finset.univ.filter p).card := by
  apply Finset.card_bij (fun a _ => σ a)
  · intro a ha
    simp only [Finset.mem_filter, Finset.mem_univ, true_and] at ha ⊢
    exact ha
  · intro a _ b _ hab
    exact hσ.injective hab
  · intro b hb
    obtain ⟨a, rfl⟩ := hσ.surjective b
    simp only [Finset.mem_filter, Finset.mem_univ, true_and] at hb
    exact ⟨a, by simp [hb], rfl⟩

theorem matchedIndexPairs_length (env : Env) (mapping : List Row)
    (ir outr : List PyStr) :
    (matchedIndexPairs env mapping ir outr).length =
      min ir.length outr.length := by
  have hinj := lsa_injective (padDim ir outr)
    (fun i j => -(paddedCell env mapping ir outr i.val j.val : Int))
  have hbij : Function.Bijective (bestAssignment env mapping ir outr) :=
    Finite.injective_iff_bijective.mp hinj
  rw [matchedIndexPairs, List.length_map, length_filter_finRange]
  have hcongr : (Finset.univ.filter (fun i : Fin (padDim ir outr) =>
      (decide (i.val < ir.length) &&
       decide ((bestAssignment env mapping ir outr i).val < outr.length)) = true)) =
      (Finset.univ.filter (fun i : Fin (padDim ir outr) =>
        i.val < ir.length ∧
        (bestAssignment env mapping ir outr i).val < outr.length)) := by
    apply Finset.filter_congr
    intro x _
    simp
  rw [hcongr]
  by_cases hnm : ir.length ≤ outr.length
  · have hd : padDim ir outr = outr.length := Nat.max_eq_right hnm
    have hcongr2 : (Finset.univ.filter (fun i : Fin (padDim ir outr) =>
        i.val < ir.length ∧
        (bestAssignment env mapping ir outr i).val < outr.length)) =
        (Finset.univ.filter (fun i : Fin (padDim ir outr) => i.val < ir.length)) := by
      apply Finset.filter_congr
      intro x _
      have : ((bestAssignment env mapping ir outr x).val < outr.length) := by
        rw [← hd]
        exact (bestAssignment env mapping ir outr x).isLt
      simp [this]
    rw [hcongr2, card_filter_val_lt, hd]
  · push_neg at hnm
    have hd : padDim ir outr = ir.length :=
      Nat.max_eq_left (le_of_lt hnm)
    have hcongr2 : (Finset.univ.filter (fun i : Fin (padDim ir outr) =>
        i.val < ir.length ∧
        (bestAssignment env mapping ir outr i).val < outr.length)) =
        (Finset.univ.filter (fun i : Fin (padDim ir outr) =>
          (bestAssignment env mapping ir outr i).val < outr.length)) := by
      apply Finset.filter_congr
      intro x _
      have : x.val < ir.length := by
        rw [← hd]
        exact x.isLt
      simp [this]
    rw [hcongr2,
      card_filter_comp_bij (padDim ir outr) (bestAssignment env mapping ir outr)
        hbij (fun j => j.val < outr.length),
      card_filter_val_lt, hd]
    omega

/-- C9.  For any input-combination list of size `n` and output-combination
list of size `m`, `find_best_reaction_match` returns exactly `min(n, m)`
matched pairs with a score list of the same length — every non-padded
assignment of the optimal solution is kept (including zero-score ones),
and when either collection is empty the result is a pair of empty lists
rather than an exception (the model is total exactly where the code is:
padding always yields a square matrix the solver accepts). -/
theorem C9_match_count (env : Env) (mapping : List Row) (ir outr : List PyStr) :
    (find_best_reaction_match env mapping (.many ir) (.many outr)).1.length =
      min ir.length outr.length ∧
    (find_best_reaction_match env mapping (.many ir) (.many outr)).2.length =
      min ir.length outr.length ∧
    (ir = [] ∨ outr = [] →
      find_best_reaction_match env mapping (.many ir) (.many outr) = ([], [])) := by
  have hlen := matchedIndexPairs_length env mapping ir outr
  have h1 : (find_best_reaction_match env mapping (.many ir) (.many outr)).1.length =
      min ir.length outr.length := by
    simp [find_best_reaction_match, find_best_match_both_decomposed_reactions, hlen]
  have h2 : (find_best_reaction_match env mapping (.many ir) (.many outr)).2.length =
      min ir.length outr.length := by
    simp [find_best_reaction_match, find_best_match_both_decomposed_reactions, hlen]
  refine ⟨h1, h2, ?_⟩
  intro hempty
  have hmin : min ir.length outr.length = 0 := by
    rcases hempty with rfl | rfl <;> simp
  have e1 : (find_best_reaction_match env mapping (.many ir) (.many outr)).1 = [] :=
    List.length_eq_zero.mp (h1.trans hmin)
  have e2 : (find_best_reaction_match env mapping (.many ir) (.many outr)).2 = [] :=
    List.length_eq_zero.mp (h2.trans hmin)
  calc find_best_reaction_match env mapping (.many ir) (.many outr) =
      ((find_best_reaction_match env mapping (.many ir) (.many outr)).1,
       (find_best_reaction_match env mapping (.many ir) (.many outr)).2) := rfl
    _ = ([], []) := by rw [e1, e2]

theorem nodup_fst_unique {β γ : Type} {P : List (β × γ)}
    (h : (P.map Prod.fst).Nodup) {i : β} {j j' : γ}
    (hj : (i, j) ∈ P) (hj' : (i, j') ∈ P) : j = j' := by
  induction P with
  | nil => simp at hj
  | cons q rest ih =>
      simp only [List.map_cons, List.nodup_cons] at h
      rcases List.mem_cons.mp hj with h1 | h1 <;>
        rcases List.mem_cons.mp hj' with h2 | h2
      · rw [← h1] at h2
        exact (Prod.mk.injEq _ _ _ _ |>.mp h2.symm).2
      · exfalso
        apply h.1
        rw [← h1]
        exact List.mem_map.mpr ⟨(i, j'), h2, rfl⟩
      · exfalso
        apply h.1
        rw [← h2]
        exact List.mem_map.mpr ⟨(i, j), h1, rfl⟩
      · exact ih h.2 h1 h2

theorem nodup_snd_unique {β γ : Type} {P : List (β × γ)}
    (h : (P.map Prod.snd).Nodup) {i i' : β} {j : γ}
    (hi : (i, j) ∈ P) (hi' : (i', j) ∈ P) : i = i' := by
  induction P with
  | nil => simp at hi
  | cons q rest ih =>
      simp only [List.map_cons, List.nodup_cons] at h
      rcases List.mem_cons.mp hi with h1 | h1 <;>
        rcases List.mem_cons.mp hi' with h2 | h2
      · rw [← h1] at h2
        exact (Prod.mk.injEq _ _ _ _ |>.mp h2.symm).1
      · exfalso
        apply h.1
        rw [← h1]
        exact List.mem_map.mpr ⟨(i', j), h2, rfl⟩
      · exfalso
        apply h.1
        rw [← h2]
        exact List.mem_map.mpr ⟨(i, j), h1, rfl⟩
      · exact ih h.2 h1 h2

theorem exists_injective_extension (d : Nat) (P : List (Fin d × Fin d))
    (h1 : (P.map Prod.fst).Nodup) (h2 : (P.map Prod.snd).Nodup) :
    ∃ σ : Fin d → Fin d, Function.Injective σ ∧ ∀ p ∈ P, σ p.1 = p.2 := by
  classical
  set fsts := (P.map Prod.fst).toFinset with hfsts
  set snds := (P.map Prod.snd).toFinset with hsnds
  have hcardf : fsts.card = P.length := by
    rw [hfsts, List.card_toFinset, h1.dedup, List.length_map]
  have hcards : snds.card = P.length := by
    rw [hsnds, List.card_toFinset, h2.dedup, List.length_map]
  have hAB : (Finset.univ \ fsts).card = (Finset.univ \ snds).card := by
    rw [Finset.card_sdiff (Finset.subset_univ _),
        Finset.card_sdiff (Finset.subset_univ _), hcardf, hcards]
  have e : {x // x ∈ Finset.univ \ fsts} ≃ {x // x ∈ Finset.univ \ snds} :=
    Fintype.equivOfCardEq (by rwa [Fintype.card_coe, Fintype.card_coe])
  have hex : ∀ i, i ∈ fsts → ∃ j, (i, j) ∈ P := by
    intro i hi
    rw [hfsts, List.mem_toFinset, List.mem_map] at hi
    obtain ⟨q, hq, rfl⟩ := hi
    exact ⟨q.2, by simpa using hq⟩
  refine ⟨fun i =>
    if h : i ∈ fsts then Classical.choose (hex i h)
    else (e ⟨i, by simp [Finset.mem_sdiff, h]⟩).val, ?_, ?_⟩
  · intro i1 i2 heq
    dsimp only at heq
    by_cases hi1 : i1 ∈ fsts <;> by_cases hi2 : i2 ∈ fsts
    · rw [dif_pos hi1, dif_pos hi2] at heq
      have hm1 := Classical.choose_spec (hex i1 hi1)
      have hm2 := Classical.choose_spec (hex i2 hi2)
      rw [heq] at hm1
      exact nodup_snd_unique h2 hm1 hm2
    · rw [dif_pos hi1, dif_neg hi2] at heq
      exfalso
      have hm1 := Classical.choose_spec (hex i1 hi1)
      have hin : Classical.choose (hex i1 hi1) ∈ snds := by
        rw [hsnds, List.mem_toFinset, List.mem_map]
        exact ⟨(i1, Classical.choose (hex i1 hi1)), hm1, rfl⟩
      have hout := (e ⟨i2, by simp [Finset.mem_sdiff, hi2]⟩).property
      rw [← heq] at hout
      rw [Finset.mem_sdiff] at hout
      exact hout.2 hin
    · rw [dif_neg hi1, dif_pos hi2] at heq
      exfalso
      have hm2 := Classical.choose_spec (hex i2 hi2)
      have hin : Classical.choose (hex i2 hi2) ∈ snds := by
        rw [hsnds, List.mem_toFinset, List.mem_map]
        exact ⟨(i2, Classical.choose (hex i2 hi2)), hm2, rfl⟩
      have hout := (e ⟨i1, by simp [Finset.mem_sdiff, hi1]⟩).property
      rw [heq] at hout
      rw [Finset.mem_sdiff] at hout
      exact hout.2 hin
    · rw [dif_neg hi1, dif_neg hi2] at heq
      have := e.injective (Subtype.ext heq)
      exact congrArg Subtype.val this
  · intro p hp
    have hpf : p.1 ∈ fsts := by
      rw [hfsts, List.mem_toFinset, List.mem_map]
      exact ⟨p, hp, rfl⟩
    dsimp only
    rw [dif_pos hpf]
    have hm := Classical.choose_spec (hex p.1 hpf)
    exact nodup_fst_unique h1 hm (by simpa using hp)

theorem sum_pairs_le_total (d : Nat) (w : Fin d → Fin d → Nat)
    (Q : List (Fin d × Fin d)) (hQ : (Q.map Prod.fst).Nodup)
    (σ : Fin d → Fin d) (hσ : ∀ p ∈ Q, σ p.1 = p.2) :
    (Q.map (fun p => w p.1 p.2)).sum ≤ ∑ i : Fin d, w i (σ i) := by
  have hmaps : Q.map (fun p => w p.1 p.2) =
      (Q.map Prod.fst).map (fun i => w i (σ i)) := by
    rw [List.map_map]
    apply List.map_congr_left
    intro p hp
    simp only [Function.comp_apply]
    rw [hσ p hp]
  rw [hmaps, ← List.sum_toFinset _ hQ]
  exact Finset.sum_le_sum_of_subset (Finset.subset_univ _)

theorem sum_filter_map_eq {β : Type} (l : List β) (p : β → Bool)
    (f g : β → Nat) (h : ∀ x ∈ l, g x = if p x then f x else 0) :
    ((l.filter p).map f).sum = (l.map g).sum := by
  induction l with
  | nil => rfl
  | cons x rest ih =>
      have hx := h x (List.mem_cons_self _ _)
      by_cases hp : p x
      · rw [List.filter_cons_of_pos hp, List.map_cons, List.sum_cons,
            List.map_cons, List.sum_cons, hx, if_pos hp,
            ih (fun y hy => h y (List.mem_cons.mpr (Or.inr hy)))]
      · rw [List.filter_cons_of_neg (by simpa using hp), List.map_cons,
            List.sum_cons, hx, if_neg hp,
            ih (fun y hy => h y (List.mem_cons.mpr (Or.inr hy)))]
        omega

theorem matched_sum_eq (env : Env) (mapping : List Row) (ir outr : List PyStr) :
    ((matchedIndexPairs env mapping ir outr).map
      (fun p => countsCell env mapping ir outr p.1 p.2)).sum =
    ∑ i : Fin (padDim ir outr),
      paddedCell env mapping ir outr i.val
        ((bestAssignment env mapping ir outr i).val) := by
  rw [Fin.sum_univ_def, matchedIndexPairs, List.map_map]
  apply sum_filter_map_eq
  intro x _
  simp only [Function.comp_apply, paddedCell]
  by_cases hb : x.val < ir.length ∧ (bestAssignment env mapping ir outr x).val < outr.length
  · rw [if_pos hb, if_pos (by simpa using hb)]
  · rw [if_neg hb, if_neg (by simpa using hb)]

/-- C2.  Matcher optimality: for any feasible one-to-one pairing `P` of
input-combination positions against output-combination positions (distinct
inputs, distinct outputs), the total overlap score of `P` never exceeds
the total score of the pairing returned by
`find_best_match_both_decomposed_reactions` (whose `linear_sum_assignment`
collaborator, external to the repository, is modelled from the spec as an
optimal minimum-cost assignment on the negated zero-padded square matrix,
padded assignments discarded). -/
theorem C2_matcher_optimal (env : Env) (mapping : List Row) (ir outr : List PyStr)
    (P : List (Fin ir.length × Fin outr.length))
    (h1 : (P.map Prod.fst).Nodup) (h2 : (P.map Prod.snd).Nodup) :
    (P.map (fun p => countsCell env mapping ir outr p.1.val p.2.val)).sum ≤
      (find_best_match_both_decomposed_reactions env mapping ir outr).2.sum := by
  have hn : ir.length ≤ padDim ir outr := le_max_left _ _
  have hm : outr.length ≤ padDim ir outr := le_max_right _ _
  set d := padDim ir outr with hd
  set Q := P.map (fun p => ((Fin.castLE hn p.1 : Fin d), (Fin.castLE hm p.2 : Fin d)))
    with hQdef
  have hq1 : (Q.map Prod.fst).Nodup := by
    rw [hQdef, List.map_map]
    have : (Prod.fst ∘ fun p : Fin ir.length × Fin outr.length =>
        ((Fin.castLE hn p.1 : Fin d), (Fin.castLE hm p.2 : Fin d))) =
        (fun i => (Fin.castLE hn i : Fin d)) ∘ Prod.fst := rfl
    rw [this, ← List.map_map]
    exact h1.map (Fin.strictMono_castLE hn).injective
  have hq2 : (Q.map Prod.snd).Nodup := by
    rw [hQdef, List.map_map]
    have : (Prod.snd ∘ fun p : Fin ir.length × Fin outr.length =>
        ((Fin.castLE hn p.1 : Fin d), (Fin.castLE hm p.2 : Fin d))) =
        (fun j => (Fin.castLE hm j : Fin d)) ∘ Prod.snd := rfl
    rw [this, ← List.map_map]
    exact h2.map (Fin.strictMono_castLE hm).injective
  obtain ⟨σ, hσinj, hσext⟩ := exists_injective_extension d Q hq1 hq2
  have hPQ : (P.map (fun p => countsCell env mapping ir outr p.1.val p.2.val)).sum =
      (Q.map (fun q =>
        paddedCell env mapping ir outr q.1.val q.2.val)).sum := by
    rw [hQdef, List.map_map]
    congr 1
    apply List.map_congr_left
    intro p _
    simp only [Function.comp_apply, Fin.coe_castLE, paddedCell]
    rw [if_pos ⟨p.1.isLt, p.2.isLt⟩]
  have hstep2 :
      (Q.map (fun q => paddedCell env mapping ir outr q.1.val q.2.val)).sum ≤
      ∑ i : Fin d, paddedCell env mapping ir outr i.val (σ i).val :=
    sum_pairs_le_total d
      (fun i j => paddedCell env mapping ir outr i.val j.val) Q hq1 σ hσext
  have hcost : ∀ f : Fin d → Fin d,
      totalCost d (fun i j => -(paddedCell env mapping ir outr i.val j.val : Int)) f =
      -((∑ i : Fin d, paddedCell env mapping ir outr i.val (f i).val : Nat) : Int) := by
    intro f
    rw [totalCost, Finset.sum_neg_distrib]
    push_cast
    rfl
  have hopt := lsa_optimal d
    (fun i j => -(paddedCell env mapping ir outr i.val j.val : Int)) σ hσinj
  rw [hcost, hcost] at hopt
  have hstep3 :
      (∑ i : Fin d, paddedCell env mapping ir outr i.val (σ i).val) ≤
      ∑ i : Fin d, paddedCell env mapping ir outr i.val
        ((linear_sum_assignment d (fun i j =>
          -(paddedCell env mapping ir outr i.val j.val : Int)) i).val) := by
    have := neg_le_neg_iff.mp hopt
    exact_mod_cast this
  have hfinal :
      (find_best_match_both_decomposed_reactions env mapping ir outr).2.sum =
      ∑ i : Fin d, paddedCell env mapping ir outr i.val
        ((bestAssignment env mapping ir outr i).val) := by
    rw [find_best_match_both_decomposed_reactions]
    exact matched_sum_eq env mapping ir outr
  rw [hfinal]
  calc (P.map (fun p => countsCell env mapping ir outr p.1.val p.2.val)).sum
      = (Q.map (fun q => paddedCell env mapping ir outr q.1.val q.2.val)).sum := hPQ
    _ ≤ ∑ i : Fin d, paddedCell env mapping ir outr i.val (σ i).val := hstep2
    _ ≤ _ := by
        rw [bestAssignment]
        exact hstep3

/-- C2, witness: the optimality bound instantiated at a concrete
one-element pairing. -/
theorem C2_witness :
    (([((0 : Fin 1), (0 : Fin 1))]).map
      (fun p => countsCell envA [] [PyStr.sha 0] [PyStr.sha 1] p.1.val p.2.val)).sum ≤
      (find_best_match_both_decomposed_reactions envA []
        [PyStr.sha 0] [PyStr.sha 1]).2.sum :=
  C2_matcher_optimal envA [] [PyStr.sha 0] [PyStr.sha 1]
    [((0 : Fin 1), (0 : Fin 1))] (by decide) (by decide)

/-- C9, witness: the empty-input case returns empty lists. -/
theorem C9_witness :
    find_best_reaction_match envA [] (.many []) (.many [PyStr.lit "x"]) = ([], []) :=
  (C9_match_count envA [] [] [PyStr.lit "x"]).2.2 (Or.inl rfl)

theorem keyIndex_getElem (l : List UKey) (k : UKey) (i : Nat)
    (h : keyIndex l k = some i) : l[i]? = some k := by
  induction l generalizing i with
  | nil => simp [keyIndex] at h
  | cons k' rest ih =>
      simp only [keyIndex] at h
      by_cases he : k = k'
      · rw [if_pos he] at h
        cases h
        subst he
        simp
      · rw [if_neg he] at h
        cases hr : keyIndex rest k with
        | none => rw [hr] at h; cases h
        | some j =>
            rw [hr] at h
            have h' : some (j + 1) = some i := h
            cases h'
            simp only [List.getElem?_cons_succ]
            exact ih j hr

theorem keyIndex_of_getElem (l : List UKey) (k : UKey) (i : Nat)
    (hl : l.Nodup) (h : l[i]? = some k) : keyIndex l k = some i := by
  induction l generalizing i with
  | nil => simp at h
  | cons k' rest ih =>
      rw [List.nodup_cons] at hl
      cases i with
      | zero =>
          simp only [List.getElem?_cons_zero, Option.some.injEq] at h
          simp [keyIndex, h.symm]
      | succ j =>
          simp only [List.getElem?_cons_succ] at h
          have hne : k ≠ k' := by
            intro he
            apply hl.1
            subst he
            exact List.getElem?_mem h
          simp [keyIndex, hne, ih j hl.2 h]

theorem keyIndex_none_iff (l : List UKey) (k : UKey) :
    keyIndex l k = none ↔ k ∉ l := by
  induction l with
  | nil => simp [keyIndex]
  | cons k' rest ih =>
      simp only [keyIndex, List.mem_cons]
      by_cases he : k = k'
      · simp [he]
      · rw [if_neg he]
        cases hr : keyIndex rest k with
        | none => simp [he, ih.mp hr]
        | some j =>
            have hmem : k ∈ rest := by
              by_contra hk
              rw [ih.mpr hk] at hr
              cases hr
            simp [he, hmem]

theorem shaMint_spec (st : DState) (k : UKey) :
    ∃ i, (shaMint st k).1 = PyStr.sha i ∧
      (shaMint st k).2.hashKeys[i]? = some k ∧
      keyTableExtends st (shaMint st k).2 ∧
      (st.hashKeys.Nodup → (shaMint st k).2.hashKeys.Nodup) ∧
      (shaMint st k).2.mapping = st.mapping ∧
      (shaMint st k).2.refDict = st.refDict := by
  rw [shaMint]
  cases hk : keyIndex st.hashKeys k with
  | some i =>
      exact ⟨i, rfl, keyIndex_getElem _ _ _ hk, ⟨[], by simp⟩, fun h => h, rfl, rfl⟩
  | none =>
      refine ⟨st.hashKeys.length, rfl, by simp, ⟨[k], rfl⟩, ?_, rfl, rfl⟩
      intro h
      rw [List.nodup_append]
      refine ⟨h, List.nodup_singleton k, ?_⟩
      intro a ha hb
      simp only [List.mem_singleton] at hb
      subst hb
      exact (keyIndex_none_iff _ _).mp hk ha

theorem nodup_getElem_inj (l : List UKey) (hl : l.Nodup) (i j : Nat) (x : UKey)
    (hi : l[i]? = some x) (hj : l[j]? = some x) : i = j := by
  obtain ⟨hib, hiv⟩ := List.getElem?_eq_some_iff.mp hi
  obtain ⟨hjb, hjv⟩ := List.getElem?_eq_some_iff.mp hj
  exact (List.Nodup.getElem_inj_iff hl).mp (hiv.trans hjv.symm)

theorem keyTableExtends_getElem (a b : DState) (h : keyTableExtends a b)
    (i : Nat) (x : UKey) (hx : a.hashKeys[i]? = some x) : b.hashKeys[i]? = some x := by
  obtain ⟨t, ht⟩ := h
  rw [ht, List.getElem?_append_left (List.getElem?_eq_some_iff.mp hx).1]
  exact hx

theorem keyTableExtends_trans (a b c : DState) (h1 : keyTableExtends a b)
    (h2 : keyTableExtends b c) : keyTableExtends a c := by
  obtain ⟨t1, ht1⟩ := h1
  obtain ⟨t2, ht2⟩ := h2
  exact ⟨t1 ++ t2, by rw [ht2, ht1, List.append_assoc]⟩

theorem break_apart_elementary (env : Env) (fuel : Nat) (mid : Nat) (st : DState)
    (h1 : "EntitySet" ∉ env.labels mid) (h2 : "Complex" ∉ env.labels mid)
    (h3 : (env.labels mid).any (fun lb => elementaryLabels.contains lb) = true) :
    break_apart_entity_standard env (fuel + 1) mid st =
      ([PyStr.lit (toString mid)], st) := by
  rw [break_apart_entity_standard]
  have hguard : ∀ (m : List Row),
      m.filter (fun r => pyEqStrInt r.reactomeId mid) = [] := by
    intro m; simp [pyEqStrInt]
  rw [hguard]
  have h3' : ∃ x ∈ env.labels mid, x ∈ elementaryLabels := by simpa using h3
  simp [h1, h2, h3']

theorem feWrap_elementary (env : Env) (fuel : Nat) (mid : Nat) (st : DState)
    (h1 : "EntitySet" ∉ env.labels mid) (h2 : "Complex" ∉ env.labels mid)
    (h3 : (env.labels mid).any (fun lb => elementaryLabels.contains lb) = true) :
    feWrap (fun i s => break_apart_entity_standard env (fuel + 1) i s) mid st =
      ([PyStr.lit (toString mid)], st) := by
  rw [feWrap]
  by_cases he : mid = 68524
  · subst he
    rw [if_pos rfl, break_apart_elementary env fuel 68524 st h1 h2 h3]
    rfl
  · rw [if_neg he, break_apart_elementary env fuel mid st h1 h2 h3]

theorem elementary_slots_fold (env : Env) (fuel : Nat) (st : DState)
    (mids : List Nat)
    (h : ∀ mid ∈ mids, "EntitySet" ∉ env.labels mid ∧ "Complex" ∉ env.labels mid ∧
      (env.labels mid).any (fun lb => elementaryLabels.contains lb) = true)
    (acc : List PyMember) :
    mids.foldl (fun (a : List PyMember × DState) mid =>
        let p := feWrap (fun i s => break_apart_entity_standard env (fuel + 1) i s)
          mid a.2
        (a.1 ++ [PyMember.mset p.1], p.2)) (acc, st) =
      (acc ++ mids.map (fun mid => PyMember.mset [PyStr.lit (toString mid)]), st) := by
  induction mids generalizing acc with
  | nil => simp
  | cons m rest ih =>
      obtain ⟨hm1, hm2, hm3⟩ := h m (List.mem_cons_self _ _)
      simp only [List.foldl_cons, feWrap_elementary env fuel m st hm1 hm2 hm3]
      rw [ih (fun mid hmid => h mid (List.mem_cons.mpr (Or.inr hmid)))]
      simp

theorem listProd_singletons {β : Type} (l : List β) (f : β → PyStr) :
    listProd (l.map (fun x => [f x])) = [l.map f] := by
  induction l with
  | nil => simp [listProd]
  | cons x rest ih => simp [listProd, ih]

theorem get_component_id_mapping (env : Env) (st : DState) (r : PyStr) :
    (get_component_id_or_reference_entity_id env st r).2.mapping = st.mapping ∧
    (get_component_id_or_reference_entity_id env st r).2.hashKeys = st.hashKeys := by
  rw [get_component_id_or_reference_entity_id]
  cases alookup st.refDict r <;> simp

theorem appendRowsStep_fold (env : Env) (uid rid : PyStr)
    (sd : List (PyStr × Int)) (items : List (PyStr × PyStr)) :
    ∀ (acc : DState × List Row),
      (items.foldl (appendRowsStep env uid rid sd) acc).1.mapping = acc.1.mapping ∧
      (items.foldl (appendRowsStep env uid rid sd) acc).1.hashKeys = acc.1.hashKeys ∧
      (items.foldl (appendRowsStep env uid rid sd) acc).2.length =
        acc.2.length + items.length := by
  induction items with
  | nil => intro acc; simp
  | cons p rest ih =>
      intro acc
      simp only [List.foldl_cons]
      obtain ⟨ha, hb, hc⟩ := ih (appendRowsStep env uid rid sd acc p)
      refine ⟨?_, ?_, ?_⟩
      · rw [ha, appendRowsStep]
        exact (get_component_id_mapping env acc.1 p.1).1
      · rw [hb, appendRowsStep]
        exact (get_component_id_mapping env acc.1 p.1).2
      · rw [hc, appendRowsStep]
        simp only [List.length_append, List.length_cons, List.length_nil,
          List.length_singleton]
        omega

theorem appendComponentRows_mapping (env : Env) (uid rid : PyStr)
    (items : List (PyStr × PyStr)) (sd : List (PyStr × Int)) (st : DState) :
    (appendComponentRows env uid rid items sd st).mapping.length =
      st.mapping.length + items.length ∧
    (appendComponentRows env uid rid items sd st).hashKeys = st.hashKeys := by
  rw [appendComponentRows]
  obtain ⟨ha, hb, hc⟩ := appendRowsStep_fold env uid rid sd items (st, [])
  constructor
  · simp only [List.length_append, ha, hc]
    simp
  · exact hb

theorem upsert_ne_nil {κ α : Type} [DecidableEq κ] (m : List (κ × α)) (k : κ) (v : α) :
    upsert m k v ≠ [] := by
  cases m with
  | nil => simp [upsert]
  | cons kv rest =>
      rw [upsert]
      by_cases he : k = kv.1
      · simp [he]
      · simp [he]

theorem buildComponentDicts_ne_nil (st : DState) (sm : List (PyStr × Int))
    (c : List PyStr) (hc : c ≠ [])
    (hns : ∀ x ∈ c, is_valid_uuid x = false) :
    (buildComponentDicts st sm c).1 ≠ [] := by
  rw [buildComponentDicts]
  cases c with
  | nil => exact absurd rfl hc
  | cons x rest =>
      rw [List.foldl_cons]
      have hx := hns x (List.mem_cons_self _ _)
      rw [if_neg (by simp [hx])]
      have aux : ∀ (l : List PyStr) (acc : List (PyStr × PyStr) × List (PyStr × Int)),
          (∀ y ∈ l, is_valid_uuid y = false) → acc.1 ≠ [] →
          (l.foldl (fun acc2 item =>
            if is_valid_uuid item then
              (st.mapping.filter (fun r => r.uid = item)).foldl
                (fun acc3 r =>
                  (upsert acc3.1 r.componentId item, upsert acc3.2 r.componentId r.stoich))
                acc2
            else
              (upsert acc2.1 item item, upsert acc2.2 item (lookupD sm item 1))) acc).1 ≠
            [] := by
        intro l
        induction l with
        | nil => intro acc _ ha; exact ha
        | cons y t ih =>
            intro acc hl ha
            rw [List.foldl_cons]
            have hy := hl y (List.mem_cons_self _ _)
            rw [if_neg (by simp [hy])]
            exact ih _ (fun z hz => hl z (List.mem_cons.mpr (Or.inr hz)))
              (upsert_ne_nil _ _ _)
      exact aux rest _ (fun z hz => hns z (List.mem_cons.mpr (Or.inr hz)))
        (upsert_ne_nil _ _ _)

theorem mem_setAdd {α : Type} [DecidableEq α] (s : List α) (a y : α)
    (h : y ∈ setAdd s a) : y ∈ s ∨ y = a := by
  rw [setAdd] at h
  by_cases ha : a ∈ s
  · rw [if_pos ha] at h
    exact Or.inl h
  · rw [if_neg ha] at h
    rcases List.mem_append.mp h with h1 | h1
    · exact Or.inl h1
    · exact Or.inr (by simpa using h1)

theorem mem_pySet {α : Type} [DecidableEq α] (l : List α) (y : α)
    (h : y ∈ pySet l) : y ∈ l := by
  rw [pySet] at h
  have aux : ∀ (t : List α) (s : List α), y ∈ t.foldl setAdd s → y ∈ s ∨ y ∈ t := by
    intro t
    induction t with
    | nil => intro s hs; exact Or.inl hs
    | cons x rest ih =>
        intro s hs
        rw [List.foldl_cons] at hs
        rcases ih _ hs with h1 | h1
        · rcases mem_setAdd _ _ _ h1 with h2 | h2
          · exact Or.inl h2
          · exact Or.inr (by simp [h2])
        · exact Or.inr (List.mem_cons.mpr (Or.inr h1))
  rcases aux l [] h with h1 | h1
  · cases h1
  · exact h1

theorem setAdd_ne_nil {α : Type} [DecidableEq α] (s : List α) (a : α)
    (h : s ≠ []) : setAdd s a ≠ [] := by
  rw [setAdd]
  by_cases ha : a ∈ s
  · simpa [ha] using h
  · simp [ha]

theorem pySet_ne_nil {α : Type} [DecidableEq α] (l : List α) (h : l ≠ []) :
    pySet l ≠ [] := by
  cases l with
  | nil => exact absurd rfl h
  | cons x rest =>
      rw [pySet, List.foldl_cons]
      have aux : ∀ (t : List α) (s : List α), s ≠ [] → t.foldl setAdd s ≠ [] := by
        intro t
        induction t with
        | nil => intro s hs; exact hs
        | cons z zs ih => intro s hs; exact ih _ (setAdd_ne_nil _ _ hs)
      apply aux
      simp [setAdd]

theorem processTuple_eq (env : Env) (rid : PyStr) (sm : List (PyStr × Int))
    (st : DState) (c : List PyStr) :
    processTuple env rid sm st c =
      ((shaMint st (uidKeyOf st sm c)).1,
       appendComponentRows env (shaMint st (uidKeyOf st sm c)).1 rid
         (buildComponentDicts st sm c).1 (buildComponentDicts st sm c).2
         (shaMint st (uidKeyOf st sm c)).2) := rfl

/-- C6, amended.  In the final revision there is no trivial-collapse
shortcut: a Complex all of whose component slots decompose to a single
non-composite elementary id still gets a content hash minted for its one
cartesian tuple — the Decomposer returns a singleton containing that
SHA-256 digest, never the complex's own id, and registers new mapping
rows. -/
theorem C6_trivial_complex_mints_hash (env : Env) (fuel : Nat) (entity_id : Nat)
    (st : DState)
    (hC : "Complex" ∈ env.labels entity_id)
    (hS : "EntitySet" ∉ env.labels entity_id)
    (hne : entity_id ≠ 68524)
    (hcomps : env.complexComponents entity_id ≠ [])
    (helem : ∀ cd ∈ env.complexComponents entity_id,
      "EntitySet" ∉ env.labels cd.1 ∧ "Complex" ∉ env.labels cd.1 ∧
      (env.labels cd.1).any (fun lb => elementaryLabels.contains lb) = true) :
    (∃ j, (break_apart_entity env (fuel + 2) entity_id st).1 = [PyStr.sha j]) ∧
    (break_apart_entity env (fuel + 2) entity_id st).1 ≠
      [PyStr.lit (toString entity_id)] ∧
    (break_apart_entity env (fuel + 2) entity_id st).2.mapping.length >
      st.mapping.length := by
  have hguard : ∀ (m : List Row),
      m.filter (fun r => pyEqStrInt r.reactomeId entity_id) = [] := by
    intro m; simp [pyEqStrInt]
  have hunfold : break_apart_entity env (fuel + 2) entity_id st =
      get_broken_apart_ids env
        ((env.complexComponents entity_id).map
          (fun cd => PyMember.mset [PyStr.lit (toString cd.1)]))
        (PyStr.lit (toString entity_id))
        ((env.complexComponents entity_id).foldl
          (fun m cd => upsert m (PyStr.lit (toString cd.1)) cd.2) []) st := by
    rw [break_apart_entity, feWrap, if_neg hne]
    show break_apart_entity_standard env (fuel + 1 + 1) entity_id st = _
    rw [break_apart_entity_standard]
    rw [hguard]
    simp only [ne_eq, not_true_eq_false, and_false, if_false]
    rw [if_pos hC, if_neg hS]
    have hfold := elementary_slots_fold env fuel st
      ((env.complexComponents entity_id).map (·.1))
      (by
        intro mid hmid
        rw [List.mem_map] at hmid
        obtain ⟨cd, hcd, rfl⟩ := hmid
        exact helem cd hcd) []
    rw [hfold]
    simp only [List.nil_append, List.map_map]
    rfl
  rw [hunfold, get_broken_apart_ids]
  rw [if_pos (by
    cases hcc : env.complexComponents entity_id with
    | nil => exact absurd hcc hcomps
    | cons cd rest => simp [PyMember.isSet])]
  dsimp only
  have hmm : ((env.complexComponents entity_id).map
      (fun cd => PyMember.mset [PyStr.lit (toString cd.1)])).map
      (fun m => match m with | PyMember.scalar s => [s] | PyMember.mset l => l) =
      (env.complexComponents entity_id).map
        (fun cd => [PyStr.lit (toString cd.1)]) := by
    rw [List.map_map]
    rfl
  rw [hmm]
  have hsing : listProd ((env.complexComponents entity_id).map
      (fun cd => [PyStr.lit (toString cd.1)])) =
      [(env.complexComponents entity_id).map
        (fun cd => PyStr.lit (toString cd.1))] :=
    listProd_singletons (env.complexComponents entity_id)
      (fun cd => PyStr.lit (toString cd.1))
  rw [hsing]
  set tup := (env.complexComponents entity_id).map
    (fun cd => PyStr.lit (toString cd.1)) with htup
  have htne : tup ≠ [] := by
    rw [htup]
    simpa using hcomps
  have htns : ∀ x ∈ pySet tup, is_valid_uuid x = false := by
    intro x hx
    have := mem_pySet _ _ hx
    rw [htup, List.mem_map] at this
    obtain ⟨cd, _, rfl⟩ := this
    rfl
  rw [get_uids_for_iterproduct_components]
  simp only [List.map_cons, List.map_nil, List.foldl_cons, List.foldl_nil]
  rw [processTuple_eq]
  obtain ⟨i, hsha, _, _, _, hmap, _⟩ := shaMint_spec st
    (uidKeyOf st ((env.complexComponents entity_id).foldl
      (fun m cd => upsert m (PyStr.lit (toString cd.1)) cd.2) []) (pySet tup))
  refine ⟨⟨i, ?_⟩, ?_, ?_⟩
  · show setAdd [] _ = _
    rw [setAdd]
    simp only [List.not_mem_nil, if_neg (by simp : ¬ _ ∈ ([] : List PyStr))]
    rw [List.nil_append]
    show [(shaMint st _).1] = _
    rw [hsha]
  · show setAdd [] _ ≠ _
    rw [setAdd]
    simp only [List.not_mem_nil, if_neg (by simp : ¬ _ ∈ ([] : List PyStr))]
    rw [List.nil_append]
    show [(shaMint st _).1] ≠ _
    rw [hsha]
    simp
  · show (appendComponentRows env _ _ _ _ _).mapping.length > st.mapping.length
    obtain ⟨hlen, _⟩ := appendComponentRows_mapping env _ _ _ _ _
    rw [hlen, hmap]
    have hitems := buildComponentDicts_ne_nil st
      ((env.complexComponents entity_id).foldl
        (fun m cd => upsert m (PyStr.lit (toString cd.1)) cd.2) [])
      (pySet tup) (pySet_ne_nil _ htne) htns
    have : 0 < (buildComponentDicts st
        ((env.complexComponents entity_id).foldl
          (fun m cd => upsert m (PyStr.lit (toString cd.1)) cd.2) [])
        (pySet tup)).1.length := List.length_pos.mpr hitems
    omega

/-- C6, witness: the amended statement instantiated at complex 200 of
`envA` (components 1 and 2, both elementary). -/
theorem C6_witness :
    (∃ j, (break_apart_entity envA (8 + 2) 200 initState).1 = [PyStr.sha j]) ∧
    (break_apart_entity envA (8 + 2) 200 initState).1 ≠
      [PyStr.lit (toString 200)] ∧
    (break_apart_entity envA (8 + 2) 200 initState).2.mapping.length >
      initState.mapping.length :=
  C6_trivial_complex_mints_hash envA 8 200 initState (by decide) (by decide)
    (by decide) (by decide) (by decide)

theorem charListLe_total (a b : List Char) :
    charListLe a b = true ∨ charListLe b a = true := by
  induction a generalizing b with
  | nil => left; rfl
  | cons x xs ih =>
      cases b with
      | nil => right; rfl
      | cons y ys =>
          simp only [charListLe]
          rcases Nat.lt_trichotomy x.toNat y.toNat with h | h | h
          · left; simp [h]
          · have hxy : ¬ x.toNat < y.toNat := by omega
            have hyx : ¬ y.toNat < x.toNat := by omega
            rcases ih ys with h1 | h1
            · left; simp [hxy, hyx, h1]
            · right; simp [hxy, hyx, h1]
          · right; simp [h]

theorem charListLe_antisymm (a b : List Char) (hab : charListLe a b = true)
    (hba : charListLe b a = true) : a = b := by
  induction a generalizing b with
  | nil =>
      cases b with
      | nil => rfl
      | cons y ys => simp [charListLe] at hba
  | cons x xs ih =>
      cases b with
      | nil => simp [charListLe] at hab
      | cons y ys =>
          simp only [charListLe] at hab hba
          rcases Nat.lt_trichotomy x.toNat y.toNat with h | h | h
          · rw [if_neg (by omega), if_pos h] at hba
            cases hba
          · have hx : x = y := Char.eq_of_val_eq (UInt32.ext h)
            rw [if_neg (by omega), if_neg (by omega)] at hab
            rw [if_neg (by omega), if_neg (by omega)] at hba
            rw [hx, ih ys hab hba]
          · rw [if_neg (by omega), if_pos h] at hab
            cases hab

theorem charListLe_trans (a b c : List Char) (hab : charListLe a b = true)
    (hbc : charListLe b c = true) : charListLe a c = true := by
  induction a generalizing b c with
  | nil => rfl
  | cons x xs ih =>
      cases b with
      | nil => simp [charListLe] at hab
      | cons y ys =>
          cases c with
          | nil => simp [charListLe] at hbc
          | cons z zs =>
              simp only [charListLe] at hab hbc ⊢
              rcases Nat.lt_trichotomy x.toNat y.toNat with h1 | h1 | h1 <;>
                rcases Nat.lt_trichotomy y.toNat z.toNat with h2 | h2 | h2
              all_goals first
                | (rw [if_pos (by omega)])
                | (rw [if_neg (by omega), if_pos (by omega)] at hab; cases hab)
                | (rw [if_neg (by omega), if_pos (by omega)] at hbc; cases hbc)
                | (rw [if_neg (by omega), if_neg (by omega)] at hab hbc ⊢
                   exact ih ys zs hab hbc)

theorem pyStrLe_total (a b : PyStr) : pyStrLe a b = true ∨ pyStrLe b a = true := by
  cases a <;> cases b <;> simp [pyStrLe] <;>
    first
      | exact charListLe_total _ _
      | omega

theorem pyStrLe_antisymm (a b : PyStr) (h1 : pyStrLe a b = true)
    (h2 : pyStrLe b a = true) : a = b := by
  cases a <;> cases b <;> simp [pyStrLe] at h1 h2
  · exact congrArg PyStr.lit (String.ext (charListLe_antisymm _ _ h1 h2))
  · rw [Nat.le_antisymm h1 h2]
  · rw [Nat.le_antisymm h1 h2]

theorem pyStrLe_trans (a b c : PyStr) (h1 : pyStrLe a b = true)
    (h2 : pyStrLe b c = true) : pyStrLe a c = true := by
  cases a <;> cases b <;> cases c <;> simp [pyStrLe] at h1 h2 ⊢ <;>
    first
      | exact charListLe_trans _ _ _ h1 h2
      | omega

theorem pairLe_total (p q : PyStr × PyStr) : pairLe p q ∨ pairLe q p := by
  unfold pairLe
  by_cases h : p.1 = q.1
  · rw [if_pos h, if_pos h.symm]
    exact pyStrLe_total _ _
  · rw [if_neg h, if_neg (fun hq => h hq.symm)]
    exact pyStrLe_total _ _

theorem pairLe_trans (p q r : PyStr × PyStr) (h1 : pairLe p q) (h2 : pairLe q r) :
    pairLe p r := by
  unfold pairLe at h1 h2 ⊢
  by_cases hpq : p.1 = q.1 <;> by_cases hqr : q.1 = r.1
  · rw [if_pos hpq] at h1
    rw [if_pos hqr] at h2
    rw [if_pos (hpq.trans hqr)]
    exact pyStrLe_trans _ _ _ h1 h2
  · rw [if_pos hpq] at h1
    rw [if_neg hqr] at h2
    rw [if_neg (fun h => hqr (hpq ▸ h)), hpq]
    exact h2
  · rw [if_neg hpq] at h1
    rw [if_pos hqr] at h2
    rw [if_neg (fun h => hpq (h.trans hqr.symm)), ← hqr]
    exact h1
  · rw [if_neg hpq] at h1
    rw [if_neg hqr] at h2
    by_cases hpr : p.1 = r.1
    · exfalso
      apply hpq
      apply pyStrLe_antisymm _ _ h1
      rw [← hpr] at h2
      exact h2
    · rw [if_neg hpr]
      exact pyStrLe_trans _ _ _ h1 h2

theorem pairLe_antisymm (p q : PyStr × PyStr) (h1 : pairLe p q) (h2 : pairLe q p) :
    p = q := by
  unfold pairLe at h1 h2
  by_cases h : p.1 = q.1
  · rw [if_pos h] at h1
    rw [if_pos h.symm] at h2
    have h2' := pyStrLe_antisymm _ _ h1 h2
    exact Prod.ext h h2'
  · rw [if_neg h] at h1
    rw [if_neg (fun hq => h hq.symm)] at h2
    exact absurd (pyStrLe_antisymm _ _ h1 h2) h

instance : IsTotal (PyStr × PyStr) pairLe := ⟨pairLe_total⟩

instance : IsTrans (PyStr × PyStr) pairLe := ⟨pairLe_trans⟩

instance : IsAntisymm (PyStr × PyStr) pairLe := ⟨pairLe_antisymm⟩

theorem sortItems_perm_eq (l l' : List (PyStr × PyStr)) (h : l.Perm l') :
    sortItems l = sortItems l' :=
  List.eq_of_perm_of_sorted
    ((List.perm_insertionSort pairLe l).trans
      (h.trans (List.perm_insertionSort pairLe l').symm))
    (List.sorted_insertionSort pairLe l) (List.sorted_insertionSort pairLe l')

theorem upsert_fresh {κ α : Type} [DecidableEq κ] (m : List (κ × α)) (k : κ) (v : α)
    (h : k ∉ m.map Prod.fst) : upsert m k v = m ++ [(k, v)] := by
  induction m with
  | nil => rfl
  | cons kv rest ih =>
      simp only [List.map_cons, List.mem_cons] at h
      push_neg at h
      rw [upsert, if_neg h.1, ih h.2]
      rfl

theorem buildDicts_fold_nonsha (st : DState) (sm : List (PyStr × Int))
    (c : List PyStr) (p : List (PyStr × PyStr) × List (PyStr × Int))
    (hval : ∀ x ∈ c, is_valid_uuid x = false)
    (hnd : c.Nodup)
    (hf1 : ∀ x ∈ c, x ∉ p.1.map Prod.fst)
    (hf2 : ∀ x ∈ c, x ∉ p.2.map Prod.fst) :
    c.foldl
      (fun acc item =>
        if is_valid_uuid item then
          (st.mapping.filter (fun r => r.uid = item)).foldl
            (fun acc2 r =>
              (upsert acc2.1 r.componentId item, upsert acc2.2 r.componentId r.stoich))
            acc
        else
          (upsert acc.1 item item, upsert acc.2 item (lookupD sm item 1)))
      p
    = (p.1 ++ c.map (fun x => (x, x)),
       p.2 ++ c.map (fun x => (x, lookupD sm x 1))) := by
  induction c generalizing p with
  | nil => simp
  | cons x xs ih =>
      rw [List.nodup_cons] at hnd
      simp only [List.foldl_cons]
      rw [if_neg (by simp [hval x (List.mem_cons_self _ _)])]
      rw [upsert_fresh _ _ _ (hf1 x (List.mem_cons_self _ _)),
        upsert_fresh _ _ _ (hf2 x (List.mem_cons_self _ _))]
      rw [ih (p.1 ++ [(x, x)], p.2 ++ [(x, lookupD sm x 1)])
        (fun y hy => hval y (List.mem_cons.mpr (Or.inr hy))) hnd.2
        (fun y hy => by
          simp only [List.map_append, List.mem_append, List.map_cons,
            List.map_nil, List.mem_singleton]
          push_neg
          exact ⟨hf1 y (List.mem_cons.mpr (Or.inr hy)),
            fun he => hnd.1 (he ▸ hy)⟩)
        (fun y hy => by
          simp only [List.map_append, List.mem_append, List.map_cons,
            List.map_nil, List.mem_singleton]
          push_neg
          exact ⟨hf2 y (List.mem_cons.mpr (Or.inr hy)),
            fun he => hnd.1 (he ▸ hy)⟩)]
      simp

theorem buildComponentDicts_nonsha (st : DState) (sm : List (PyStr × Int))
    (c : List PyStr)
    (hval : ∀ x ∈ c, is_valid_uuid x = false) (hnd : c.Nodup) :
    buildComponentDicts st sm c =
      (c.map (fun x => (x, x)), c.map (fun x => (x, lookupD sm x 1))) := by
  have h := buildDicts_fold_nonsha st sm c ([], []) hval hnd
    (fun x _ => by simp) (fun x _ => by simp)
  simpa [buildComponentDicts] using h

theorem alookup_perm {κ α : Type} [DecidableEq κ] (m m' : List (κ × α))
    (h : m.Perm m') (hn : (m.map Prod.fst).Nodup) (k : κ) :
    alookup m k = alookup m' k := by
  revert hn
  induction h with
  | nil => intro _; rfl
  | cons x h ih =>
      intro hn
      rw [List.map_cons, List.nodup_cons] at hn
      rw [alookup, alookup]
      by_cases he : k = x.1
      · rw [if_pos he, if_pos he]
      · rw [if_neg he, if_neg he]
        exact ih hn.2
  | swap x y l =>
      intro hn
      simp only [List.map_cons, List.nodup_cons, List.mem_cons] at hn
      push_neg at hn
      rw [alookup, alookup, alookup, alookup]
      by_cases hx : k = x.1 <;> by_cases hy : k = y.1
      · exact absurd (hx.symm.trans hy) (fun he => hn.1.1 he.symm)
      · simp only [if_pos hx, if_neg hy]
      · simp only [if_neg hx, if_pos hy]
      · simp only [if_neg hx, if_neg hy]
  | trans h1 h2 ih1 ih2 =>
      intro hn
      exact (ih1 hn).trans (ih2 ((h1.map Prod.fst).nodup_iff.mp hn))

theorem uidKeyOf_perm (st : DState) (sm : List (PyStr × Int)) (c c' : List PyStr)
    (hperm : c.Perm c') (hval : ∀ x ∈ c, is_valid_uuid x = false)
    (hnd : c.Nodup) :
    uidKeyOf st sm c = uidKeyOf st sm c' := by
  have hval' : ∀ x ∈ c', is_valid_uuid x = false :=
    fun x hx => hval x (hperm.mem_iff.mpr hx)
  have hnd' : c'.Nodup := hperm.nodup_iff.mp hnd
  show (sortItems (buildComponentDicts st sm c).1).map
      (fun p => (p.1, p.2, lookupD (buildComponentDicts st sm c).2 p.1 1)) =
    (sortItems (buildComponentDicts st sm c').1).map
      (fun p => (p.1, p.2, lookupD (buildComponentDicts st sm c').2 p.1 1))
  rw [buildComponentDicts_nonsha st sm c hval hnd,
    buildComponentDicts_nonsha st sm c' hval' hnd']
  dsimp only
  rw [sortItems_perm_eq _ _ (hperm.map (fun x => (x, x)))]
  apply List.map_congr_left
  intro p _
  have hkeys : ((c.map (fun x => (x, lookupD sm x 1))).map Prod.fst).Nodup := by
    rw [List.map_map]
    have hcomp : (Prod.fst ∘ fun x : PyStr => (x, lookupD sm x 1)) = id := rfl
    rw [hcomp, List.map_id]
    exact hnd
  rw [lookupD, lookupD,
    alookup_perm _ _ (hperm.map (fun x => (x, lookupD sm x 1))) hkeys p.1]

theorem processTuple_uid_iff (env1 env2 : Env) (rid1 rid2 : PyStr)
    (sm1 sm2 : List (PyStr × Int)) (st1 st2 : DState) (c1 c2 : List PyStr)
    (hext : keyTableExtends (processTuple env1 rid1 sm1 st1 c1).2 st2)
    (hnd2 : st2.hashKeys.Nodup) :
    ((processTuple env1 rid1 sm1 st1 c1).1 =
        (processTuple env2 rid2 sm2 st2 c2).1 ↔
      uidKeyOf st1 sm1 c1 = uidKeyOf st2 sm2 c2) := by
  obtain ⟨i1, hu1, hkey1, hext1, hndp1, hmap1, href1⟩ :=
    shaMint_spec st1 (uidKeyOf st1 sm1 c1)
  obtain ⟨i2, hu2, hkey2, hext2, hndp2, hmap2, href2⟩ :=
    shaMint_spec st2 (uidKeyOf st2 sm2 c2)
  have hKeysEq : (processTuple env1 rid1 sm1 st1 c1).2.hashKeys =
      (shaMint st1 (uidKeyOf st1 sm1 c1)).2.hashKeys := by
    rw [processTuple_eq]
    exact (appendComponentRows_mapping _ _ _ _ _ _).2
  have hext' : keyTableExtends (shaMint st1 (uidKeyOf st1 sm1 c1)).2 st2 := by
    obtain ⟨t, ht⟩ := hext
    exact ⟨t, by rw [ht, hKeysEq]⟩
  have hk1st2 : st2.hashKeys[i1]? = some (uidKeyOf st1 sm1 c1) :=
    keyTableExtends_getElem _ _ hext' i1 _ hkey1
  have hk1post2 : (shaMint st2 (uidKeyOf st2 sm2 c2)).2.hashKeys[i1]? =
      some (uidKeyOf st1 sm1 c1) :=
    keyTableExtends_getElem _ _ hext2 i1 _ hk1st2
  rw [processTuple_eq env1 rid1 sm1 st1 c1, processTuple_eq env2 rid2 sm2 st2 c2]
  dsimp only
  constructor
  · intro h
    rw [hu1, hu2] at h
    have hi : i1 = i2 := by
      cases h
      rfl
    rw [← hi] at hkey2
    have := hk1post2.symm.trans hkey2
    exact Option.some.inj this
  · intro h
    have hki : keyIndex st2.hashKeys (uidKeyOf st2 sm2 c2) = some i1 := by
      rw [← h]
      exact keyIndex_of_getElem _ _ _ hnd2 hk1st2
    have hred : shaMint st2 (uidKeyOf st2 sm2 c2) = (PyStr.sha i1, st2) := by
      rw [shaMint, hki]
    rw [hu1, hred]

/-- C1, amended.  The Decomposition Hash is content-addressed in the
`uid_data` key, not in the elementary multiset: within one run (the later
state's hash-cons table extending the earlier call's, duplicate-free), two
`get_uids_for_iterproduct_components` tuples receive the identical digest
exactly when their sorted `uid_data` keys — `(component_id,
input_or_output pointer, stoichiometry)` triples — coincide; and on
non-digest, duplicate-free components the key is independent of traversal
order, so reordering a tuple never changes its hash. -/
theorem C1_hash_content_addressed :
    (∀ (env1 env2 : Env) (rid1 rid2 : PyStr) (sm1 sm2 : List (PyStr × Int))
        (st1 st2 : DState) (c1 c2 : List PyStr),
        keyTableExtends (processTuple env1 rid1 sm1 st1 c1).2 st2 →
        st2.hashKeys.Nodup →
        ((processTuple env1 rid1 sm1 st1 c1).1 =
            (processTuple env2 rid2 sm2 st2 c2).1 ↔
          uidKeyOf st1 sm1 c1 = uidKeyOf st2 sm2 c2)) ∧
    (∀ (st : DState) (sm : List (PyStr × Int)) (c c' : List PyStr),
        c.Perm c' → (∀ x ∈ c, is_valid_uuid x = false) → c.Nodup →
        uidKeyOf st sm c = uidKeyOf st sm c') :=
  ⟨fun env1 env2 rid1 rid2 sm1 sm2 st1 st2 c1 c2 hext hnd2 =>
      processTuple_uid_iff env1 env2 rid1 rid2 sm1 sm2 st1 st2 c1 c2 hext hnd2,
    fun st sm c c' hperm hval hnd => uidKeyOf_perm st sm c c' hperm hval hnd⟩

/-- C1, witness: the amended statement instantiated at two consecutive
calls hashing component `1` of `envA` (they agree, and the keys agree),
and at the two traversal orders of the pair `1, 2` (equal keys). -/
theorem C1_witness :
    ((processTuple envA (PyStr.lit "r") [] initState [PyStr.lit "1"]).1 =
        (processTuple envA (PyStr.lit "s") []
          (processTuple envA (PyStr.lit "r") [] initState [PyStr.lit "1"]).2
          [PyStr.lit "1"]).1 ↔
      uidKeyOf initState [] [PyStr.lit "1"] =
        uidKeyOf (processTuple envA (PyStr.lit "r") [] initState [PyStr.lit "1"]).2
          [] [PyStr.lit "1"]) ∧
    uidKeyOf initState [] [PyStr.lit "1", PyStr.lit "2"] =
      uidKeyOf initState [] [PyStr.lit "2", PyStr.lit "1"] :=
  ⟨C1_hash_content_addressed.1 envA envA (PyStr.lit "r") (PyStr.lit "s") [] []
      initState _ [PyStr.lit "1"] [PyStr.lit "1"]
      ⟨[], (List.append_nil _).symm⟩ (by decide),
    C1_hash_content_addressed.2 initState [] _ _ (by decide) (by decide) (by decide)⟩

theorem listProd_length {β : Type} (ls : List (List β)) :
    (listProd ls).length = (ls.map List.length).prod := by
  induction ls with
  | nil => simp [listProd]
  | cons l ls ih =>
      simp only [List.map_cons, List.prod_cons]
      show (l.foldr (fun x acc => ((listProd ls).map (fun r => x :: r)) ++ acc)
        []).length = l.length * (ls.map List.length).prod
      induction l with
      | nil => simp
      | cons x rest ih2 =>
          simp only [List.foldr_cons, List.length_append, List.length_map, ih2,
            List.length_cons, ih]
          ring

theorem mem_of_mem_listProd {β : Type} (ls : List (List β)) (t : List β)
    (ht : t ∈ listProd ls) (y : β) (hy : y ∈ t) : ∃ l ∈ ls, y ∈ l := by
  induction ls generalizing t with
  | nil =>
      simp only [listProd, List.mem_singleton] at ht
      subst ht
      cases hy
  | cons l ls ih =>
      obtain ⟨x, hx, r, hr, rfl⟩ := (mem_listProd_cons _ _ _).mp ht
      rcases List.mem_cons.mp hy with rfl | hy'
      · exact ⟨l, List.mem_cons_self _ _, hx⟩
      · obtain ⟨l', hl', hyl'⟩ := ih r hr hy'
        exact ⟨l', List.mem_cons.mpr (Or.inr hl'), hyl'⟩

theorem listProd_tuple_nodup (ls : List (List PyStr))
    (hdisj : ls.Pairwise (fun a b => ∀ x ∈ a, x ∉ b))
    (t : List PyStr) (ht : t ∈ listProd ls) : t.Nodup := by
  induction ls generalizing t with
  | nil =>
      simp only [listProd, List.mem_singleton] at ht
      subst ht
      exact List.nodup_nil
  | cons l ls ih =>
      rw [List.pairwise_cons] at hdisj
      obtain ⟨x, hx, r, hr, rfl⟩ := (mem_listProd_cons _ _ _).mp ht
      rw [List.nodup_cons]
      refine ⟨?_, ih hdisj.2 r hr⟩
      intro hxr
      obtain ⟨l', hl', hxl'⟩ := mem_of_mem_listProd ls r hr x hxr
      exact hdisj.1 l' hl' x hx hxl'

theorem listProd_disjoint_perm_eq (ls : List (List PyStr))
    (hdisj : ls.Pairwise (fun a b => ∀ x ∈ a, x ∉ b))
    (t t' : List PyStr) (ht : t ∈ listProd ls) (ht' : t' ∈ listProd ls)
    (hperm : t.Perm t') : t = t' := by
  induction ls generalizing t t' with
  | nil =>
      simp only [listProd, List.mem_singleton] at ht ht'
      rw [ht, ht']
  | cons l ls ih =>
      rw [List.pairwise_cons] at hdisj
      obtain ⟨x, hx, r, hr, rfl⟩ := (mem_listProd_cons _ _ _).mp ht
      obtain ⟨x', hx', r', hr', rfl⟩ := (mem_listProd_cons _ _ _).mp ht'
      have hxx : x = x' := by
        have hmem : x ∈ x' :: r' := hperm.mem_iff.mp (List.mem_cons_self _ _)
        rcases List.mem_cons.mp hmem with h | h
        · exact h
        · obtain ⟨l', hl', hxl'⟩ := mem_of_mem_listProd ls r' hr' x h
          exact absurd hxl' (hdisj.1 l' hl' x hx)
      subst hxx
      rw [ih hdisj.2 r r' hr hr' hperm.cons_inv]

theorem listProd_nodup (ls : List (List PyStr)) (h : ∀ l ∈ ls, l.Nodup) :
    (listProd ls).Nodup := by
  induction ls with
  | nil => simp [listProd]
  | cons l ls ih =>
      have hP : (listProd ls).Nodup :=
        ih (fun l' hl' => h l' (List.mem_cons.mpr (Or.inr hl')))
      have hl : l.Nodup := h l (List.mem_cons_self _ _)
      have aux : ∀ (m : List PyStr), m.Nodup →
          (m.foldr (fun x acc => ((listProd ls).map (fun r => x :: r)) ++ acc)
            []).Nodup := by
        intro m
        induction m with
        | nil => intro _; exact List.nodup_nil
        | cons x rest ih2 =>
            intro hm
            rw [List.nodup_cons] at hm
            simp only [List.foldr_cons]
            rw [List.nodup_append]
            refine ⟨List.Nodup.map (fun a b hab => by
              injection hab) hP, ih2 hm.2, ?_⟩
            intro v hv1 hv2
            obtain ⟨r, _, rfl⟩ := List.mem_map.mp hv1
            have hv2' : x :: r ∈ listProd (rest :: ls) := hv2
            obtain ⟨y, hy, r2, _, he⟩ := (mem_listProd_cons _ _ _).mp hv2'
            have hxy : x = y := by injection he
            exact hm.1 (hxy ▸ hy)
        
      exact aux l hl

theorem pySet_nodup_id {α : Type} [DecidableEq α] (l : List α) (h : l.Nodup) :
    pySet l = l := by
  have aux : ∀ (t s : List α), t.Nodup → (∀ x ∈ t, x ∉ s) →
      t.foldl setAdd s = s ++ t := by
    intro t
    induction t with
    | nil => intro s _ _; simp
    | cons x rest ih =>
        intro s ht hs
        rw [List.nodup_cons] at ht
        rw [List.foldl_cons, setAdd, if_neg (hs x (List.mem_cons_self _ _))]
        rw [ih (s ++ [x]) ht.2 (fun y hy => by
          rw [List.mem_append, List.mem_singleton]
          push_neg
          exact ⟨hs y (List.mem_cons.mpr (Or.inr hy)),
            fun he => ht.1 (he ▸ hy)⟩)]
        simp
  simpa [pySet] using aux l [] h (fun x _ => List.not_mem_nil x)

theorem setAdd_length_le {α : Type} [DecidableEq α] (s : List α) (a : α) :
    (setAdd s a).length ≤ s.length + 1 := by
  rw [setAdd]
  by_cases hm : a ∈ s
  · rw [if_pos hm]; omega
  · rw [if_neg hm]; simp

theorem uidKeyOf_state_indep (st st' : DState) (sm : List (PyStr × Int))
    (c : List PyStr) (hval : ∀ x ∈ c, is_valid_uuid x = false)
    (hnd : c.Nodup) : uidKeyOf st sm c = uidKeyOf st' sm c := by
  show (sortItems (buildComponentDicts st sm c).1).map
      (fun p => (p.1, p.2, lookupD (buildComponentDicts st sm c).2 p.1 1)) =
    (sortItems (buildComponentDicts st' sm c).1).map
      (fun p => (p.1, p.2, lookupD (buildComponentDicts st' sm c).2 p.1 1))
  rw [buildComponentDicts_nonsha st sm c hval hnd,
    buildComponentDicts_nonsha st' sm c hval hnd]

theorem uidKeyOf_inj_perm (st1 st2 : DState) (sm : List (PyStr × Int))
    (t t' : List PyStr)
    (hval : ∀ x ∈ t, is_valid_uuid x = false)
    (hval' : ∀ x ∈ t', is_valid_uuid x = false)
    (hnd : t.Nodup) (hnd' : t'.Nodup)
    (h : uidKeyOf st1 sm t = uidKeyOf st2 sm t') : t.Perm t' := by
  have h1 : uidKeyOf st1 sm t =
      (sortItems (t.map (fun x => (x, x)))).map
        (fun p => (p.1, p.2, lookupD (t.map (fun x => (x, lookupD sm x 1))) p.1 1)) := by
    show (sortItems (buildComponentDicts st1 sm t).1).map
        (fun p => (p.1, p.2, lookupD (buildComponentDicts st1 sm t).2 p.1 1)) = _
    rw [buildComponentDicts_nonsha st1 sm t hval hnd]
  have h2 : uidKeyOf st2 sm t' =
      (sortItems (t'.map (fun x => (x, x)))).map
        (fun p => (p.1, p.2, lookupD (t'.map (fun x => (x, lookupD sm x 1))) p.1 1)) := by
    show (sortItems (buildComponentDicts st2 sm t').1).map
        (fun p => (p.1, p.2, lookupD (buildComponentDicts st2 sm t').2 p.1 1)) = _
    rw [buildComponentDicts_nonsha st2 sm t' hval' hnd']
  rw [h1, h2] at h
  have h3 := congrArg (List.map (fun e : PyStr × PyStr × Int => e.1)) h
  rw [List.map_map, List.map_map] at h3
  have hc1 : ((fun e : PyStr × PyStr × Int => e.1) ∘
      fun p : PyStr × PyStr =>
        (p.1, p.2, lookupD (t.map (fun x => (x, lookupD sm x 1))) p.1 1)) =
      Prod.fst := rfl
  have hc2 : ((fun e : PyStr × PyStr × Int => e.1) ∘
      fun p : PyStr × PyStr =>
        (p.1, p.2, lookupD (t'.map (fun x => (x, lookupD sm x 1))) p.1 1)) =
      Prod.fst := rfl
  rw [hc1, hc2] at h3
  have p1 : ((sortItems (t.map (fun x => (x, x)))).map Prod.fst).Perm t := by
    have hp := (List.perm_insertionSort pairLe (t.map (fun x => (x, x)))).map Prod.fst
    have hid : (t.map (fun x => (x, x))).map Prod.fst = t := by
      rw [List.map_map]
      have : (Prod.fst ∘ fun x : PyStr => (x, x)) = id := rfl
      rw [this, List.map_id]
    rw [hid] at hp
    exact hp
  have p2 : ((sortItems (t'.map (fun x => (x, x)))).map Prod.fst).Perm t' := by
    have hp := (List.perm_insertionSort pairLe (t'.map (fun x => (x, x)))).map Prod.fst
    have hid : (t'.map (fun x => (x, x))).map Prod.fst = t' := by
      rw [List.map_map]
      have : (Prod.fst ∘ fun x : PyStr => (x, x)) = id := rfl
      rw [this, List.map_id]
    rw [hid] at hp
    exact hp
  exact p1.symm.trans (h3 ▸ p2)

theorem uids_fold_length_le (env : Env) (rid : PyStr)
    (sm : List (PyStr × Int)) :
    ∀ (comps : List (List PyStr)) (acc : List PyStr × DState),
      (comps.foldl
        (fun acc comp =>
          let r := processTuple env rid sm acc.2 comp
          (setAdd acc.1 r.1, r.2)) acc).1.length ≤ acc.1.length + comps.length := by
  intro comps
  induction comps with
  | nil => intro acc; simp
  | cons c rest ih =>
      intro acc
      rw [List.foldl_cons]
      refine le_trans (ih _) ?_
      have := setAdd_length_le acc.1 (processTuple env rid sm acc.2 c).1
      simp only [List.length_cons]
      omega

theorem get_uids_length_le (env : Env) (comps : List (List PyStr))
    (rid : PyStr) (sm : List (PyStr × Int)) (st : DState) :
    (get_uids_for_iterproduct_components env comps rid sm st).1.length ≤
      comps.length := by
  have h := uids_fold_length_le env rid sm comps ([], st)
  simpa [get_uids_for_iterproduct_components] using h

theorem uids_fold_count (env : Env) (rid : PyStr) (sm : List (PyStr × Int))
    (all : List (List PyStr))
    (hval : ∀ t ∈ all, ∀ x ∈ t, is_valid_uuid x = false)
    (hndt : ∀ t ∈ all, t.Nodup)
    (hinj : ∀ t ∈ all, ∀ t' ∈ all, t.Perm t' → t = t')
    (hnodall : all.Nodup) :
    ∀ (rest processed : List (List PyStr)) (acc : List PyStr × DState),
      processed ++ rest = all →
      acc.2.hashKeys.Nodup →
      acc.1.Nodup →
      (∀ u ∈ acc.1, ∃ i t, t ∈ processed ∧ u = PyStr.sha i ∧
        acc.2.hashKeys[i]? = some (uidKeyOf initState sm t)) →
      (rest.foldl
        (fun acc comp =>
          let r := processTuple env rid sm acc.2 comp
          (setAdd acc.1 r.1, r.2)) acc).1.length = acc.1.length + rest.length := by
  intro rest
  induction rest with
  | nil => intro processed acc _ _ _ _; simp
  | cons t' tl ih =>
      intro processed acc hsplit hndK hndacc hmem
      have ht'all : t' ∈ all := by
        rw [← hsplit]
        exact List.mem_append.mpr (Or.inr (List.mem_cons_self _ _))
      obtain ⟨i', hu', hkey', hext', hndpres, hmapmint, hrefmint⟩ :=
        shaMint_spec acc.2 (uidKeyOf acc.2 sm t')
      have hr1 : (processTuple env rid sm acc.2 t').1 =
          (shaMint acc.2 (uidKeyOf acc.2 sm t')).1 := by
        rw [processTuple_eq]
      have hr2keys : (processTuple env rid sm acc.2 t').2.hashKeys =
          (shaMint acc.2 (uidKeyOf acc.2 sm t')).2.hashKeys := by
        rw [processTuple_eq]
        exact (appendComponentRows_mapping _ _ _ _ _ _).2
      have hKt' : uidKeyOf acc.2 sm t' = uidKeyOf initState sm t' :=
        uidKeyOf_state_indep acc.2 initState sm t' (hval t' ht'all) (hndt t' ht'all)
      have ht'proc : t' ∉ processed := by
        intro hin
        have hnd' : (processed ++ t' :: tl).Nodup := hsplit ▸ hnodall
        rcases List.nodup_append.mp hnd' with ⟨_, _, hdis⟩
        exact hdis hin (List.mem_cons_self _ _)
      have hfresh : (processTuple env rid sm acc.2 t').1 ∉ acc.1 := by
        intro hin
        obtain ⟨i, t, htproc, hueq, hkey⟩ := hmem _ hin
        rw [hr1, hu'] at hueq
        have hii : i' = i := by
          injection hueq
        subst hii
        have hstab := keyTableExtends_getElem _ _ hext' i' _ hkey
        rw [hkey'] at hstab
        have hkk : uidKeyOf initState sm t' = uidKeyOf initState sm t := by
          rw [← hKt']
          exact Option.some.inj hstab
        have htall : t ∈ all := by
          rw [← hsplit]
          exact List.mem_append.mpr (Or.inl htproc)
        have hperm : t'.Perm t :=
          uidKeyOf_inj_perm initState initState sm t' t (hval t' ht'all)
            (hval t htall) (hndt t' ht'all) (hndt t htall) hkk
        exact ht'proc ((hinj t' ht'all t htall hperm) ▸ htproc)
      simp only [List.foldl_cons]
      have hsetAdd : setAdd acc.1 (processTuple env rid sm acc.2 t').1 =
          acc.1 ++ [(processTuple env rid sm acc.2 t').1] := by
        rw [setAdd, if_neg hfresh]
      have hstep := ih (processed ++ [t'])
        (setAdd acc.1 (processTuple env rid sm acc.2 t').1,
          (processTuple env rid sm acc.2 t').2)
        (by rw [List.append_assoc]; exact hsplit)
        (by rw [hr2keys]; exact hndpres hndK)
        (by
          rw [hsetAdd, List.nodup_append]
          exact ⟨hndacc, List.nodup_singleton _, fun a ha hb => by
            rw [List.mem_singleton] at hb
            exact hfresh (hb ▸ ha)⟩)
        (by
          intro u hu
          rw [hsetAdd, List.mem_append, List.mem_singleton] at hu
          rcases hu with hu | hu
          · obtain ⟨i, t, htproc, hueq, hkey⟩ := hmem u hu
            refine ⟨i, t, List.mem_append.mpr (Or.inl htproc), hueq, ?_⟩
            rw [hr2keys]
            exact keyTableExtends_getElem _ _ hext' i _ hkey
          · refine ⟨i', t', List.mem_append.mpr (Or.inr (List.mem_singleton.mpr rfl)),
              by rw [hu, hr1, hu'], ?_⟩
            rw [hr2keys, hkey', hKt'])
      rw [hstep]
      show (setAdd acc.1 (processTuple env rid sm acc.2 t').1).length + tl.length =
        acc.1.length + (t' :: tl).length
      rw [hsetAdd]
      simp only [List.length_append, List.length_cons, List.length_nil]
      omega

/-- C3, amended.  In the combinatorial branch of `get_broken_apart_ids`
the cartesian tuples are converted to Python sets before hashing and the
minted uids are collected into a set, so `|S1| x ... x |Sk|` is only an
upper bound on the number of Decomposition Hashes; it is attained when the
slots are pairwise disjoint, each slot is duplicate-free with non-digest
members, and the run's hash-cons table is duplicate-free — then every
tuple survives set conversion intact and mints a distinct digest. -/
theorem C3_hash_count :
    (∀ (env : Env) (slots : List (List PyStr)) (rid : PyStr)
        (sm : List (PyStr × Int)) (st : DState), slots ≠ [] →
        (get_broken_apart_ids env (slots.map PyMember.mset) rid sm st).1.length ≤
          (slots.map List.length).prod) ∧
    (∀ (env : Env) (slots : List (List PyStr)) (rid : PyStr)
        (sm : List (PyStr × Int)) (st : DState), slots ≠ [] →
        (∀ l ∈ slots, ∀ x ∈ l, is_valid_uuid x = false) →
        (∀ l ∈ slots, l.Nodup) →
        slots.Pairwise (fun a b => ∀ x ∈ a, x ∉ b) →
        st.hashKeys.Nodup →
        (get_broken_apart_ids env (slots.map PyMember.mset) rid sm st).1.length =
          (slots.map List.length).prod) := by
  have hbranch : ∀ (slots : List (List PyStr)), slots ≠ [] →
      (slots.map PyMember.mset).any PyMember.isSet = true := by
    intro slots hne
    cases slots with
    | nil => exact absurd rfl hne
    | cons l ls => simp [PyMember.isSet]
  have hunwrap : ∀ (slots : List (List PyStr)),
      (slots.map PyMember.mset).map
        (fun m => match m with | .scalar s => [s] | .mset l => l) = slots := by
    intro slots
    rw [List.map_map]
    have hc : ((fun m => match m with | PyMember.scalar s => [s] | PyMember.mset l => l) ∘
        PyMember.mset) = (id : List PyStr → List PyStr) := rfl
    rw [hc, List.map_id]
  constructor
  · intro env slots rid sm st hne
    rw [get_broken_apart_ids, if_pos (hbranch slots hne)]
    show (get_uids_for_iterproduct_components env
        ((listProd ((slots.map PyMember.mset).map
          (fun m => match m with | .scalar s => [s] | .mset l => l))).map pySet)
        rid sm st).1.length ≤ _
    rw [hunwrap]
    refine le_trans (get_uids_length_le env _ rid sm st) ?_
    rw [List.length_map, listProd_length]
  · intro env slots rid sm st hne hval hndl hdisj hndK
    rw [get_broken_apart_ids, if_pos (hbranch slots hne)]
    show (get_uids_for_iterproduct_components env
        ((listProd ((slots.map PyMember.mset).map
          (fun m => match m with | .scalar s => [s] | .mset l => l))).map pySet)
        rid sm st).1.length = _
    rw [hunwrap]
    have hsets : (listProd slots).map pySet = listProd slots := by
      have h := List.map_congr_left (l := listProd slots) (f := pySet) (g := fun t => t)
        (fun t ht => pySet_nodup_id t (listProd_tuple_nodup slots hdisj t ht))
      simpa using h
    rw [hsets]
    have hvalt : ∀ t ∈ listProd slots, ∀ x ∈ t, is_valid_uuid x = false := by
      intro t ht x hx
      obtain ⟨l, hl, hxl⟩ := mem_of_mem_listProd slots t ht x hx
      exact hval l hl x hxl
    have hndt : ∀ t ∈ listProd slots, t.Nodup :=
      fun t ht => listProd_tuple_nodup slots hdisj t ht
    have hinj : ∀ t ∈ listProd slots, ∀ t' ∈ listProd slots, t.Perm t' → t = t' :=
      fun t ht t' ht' hp => listProd_disjoint_perm_eq slots hdisj t t' ht ht' hp
    have hnodall : (listProd slots).Nodup := listProd_nodup slots hndl
    have h := uids_fold_count env rid sm (listProd slots) hvalt hndt hinj hnodall
      (listProd slots) [] ([], st) rfl hndK List.nodup_nil
      (fun u hu => absurd hu (List.not_mem_nil u))
    show ((listProd slots).foldl
      (fun acc comp =>
        let r := processTuple env rid sm acc.2 comp
        (setAdd acc.1 r.1, r.2)) ([], st)).1.length = _
    rw [h, listProd_length]
    simp

/-- C3, witness: the amended statement instantiated at the slot lists
`[1]` and `[2, 3]` of `envA` — at most and exactly `1 * 2` Decomposition
Hashes are minted. -/
theorem C3_witness :
    (get_broken_apart_ids envA
        ([[PyStr.lit "1"], [PyStr.lit "2", PyStr.lit "3"]].map PyMember.mset)
        (PyStr.lit "r") [] initState).1.length ≤
      ([[PyStr.lit "1"], [PyStr.lit "2", PyStr.lit "3"]].map List.length).prod ∧
    (get_broken_apart_ids envA
        ([[PyStr.lit "1"], [PyStr.lit "2", PyStr.lit "3"]].map PyMember.mset)
        (PyStr.lit "r") [] initState).1.length =
      ([[PyStr.lit "1"], [PyStr.lit "2", PyStr.lit "3"]].map List.length).prod :=
  ⟨C3_hash_count.1 envA [[PyStr.lit "1"], [PyStr.lit "2", PyStr.lit "3"]]
      (PyStr.lit "r") [] initState (by decide),
    C3_hash_count.2 envA [[PyStr.lit "1"], [PyStr.lit "2", PyStr.lit "3"]]
      (PyStr.lit "r") [] initState (by decide) (by decide) (by decide)
      (by decide) (by decide)⟩
